import Mathlib

/-!
The program kubectl-decode: a shallow embedding of the decode pipeline.

The development follows the Go sources

* `internal/format/format.go`   (`AssertFormat`, `convertMap`, `DecodeBase64Values`,
  `ParseInput`, `OutputResult`),
* `internal/resource/resource.go` (`ProcessResource`, `HandleGetCommand`),
* `cmd/cmd.go` (`Execute`).

Modelling conventions.

* A Go `interface{}` value is a `Value`.  A Go map is an association list; the order of the
  list is the order in which a `range` loop visits the entries, so a statement proved for every
  list covers every iteration order the Go runtime may pick.  Reading `m[k]` returns the first
  entry for `k`, `m[k] = v` replaces that entry in place or appends a new one, `delete(m, k)`
  removes every entry for `k`.  A list that comes from a Go map has pairwise distinct keys
  (`KeysNodup`); the hypothesis is stated wherever a proof needs it.
* Go maps are references.  The documents handled here are trees (both parsers build fresh
  maps), so a mutation through a reference to a nested map is modelled by writing the updated
  nested map back into its parent.
* A document is a non-nil map: `Execute` and `HandleGetCommand` build the maps they pass on
  with `make`.
* A Go `string` is modelled by `String`.
* Functions of libraries outside the repository (`encoding/base64`, `encoding/json`,
  `gopkg.in/yaml.v2`, `fmt.Sprintf("%v", _)`) and the package `internal/decode`, whose source
  is not part of the development, are fields of `Lib`; every general theorem holds for every
  `Lib`.
* The process-wide variable `detectedFormat` is passed explicitly.
* Output of the `log` package (time-stamped diagnostics, `DebugLog`) is not modelled.
-/

namespace KubectlDecode

/-! ## Values and maps -/

/-- A dynamically typed Go value. `smap` is `map[string]interface{}`, `imap` is
`map[interface{}]interface{}`, `seq` is `[]interface{}`; `float` carries the bit pattern of a
`float64`. -/
inductive Value where
  | null : Value
  | bool (b : Bool) : Value
  | int (n : Int) : Value
  | float (bits : Nat) : Value
  | str (s : String) : Value
  | seq (xs : List Value) : Value
  | smap (m : List (String × Value)) : Value
  | imap (m : List (Value × Value)) : Value

/-- The Go type `map[string]interface{}`. -/
abbrev SMap := List (String × Value)

/-- The Go type `map[interface{}]interface{}`. -/
abbrev IMap := List (Value × Value)

/-- Reading `m[k]` from a string-keyed map (comma-ok form). -/
def mapGet {β : Type} (m : List (String × β)) (k : String) : Option β :=
  match m with
  | [] => none
  | (k', v) :: rest => if k' = k then some v else mapGet rest k

/-- The assignment `m[k] = v` on a string-keyed map. -/
def mapPut {β : Type} (m : List (String × β)) (k : String) (v : β) : List (String × β) :=
  match m with
  | [] => [(k, v)]
  | (k', v') :: rest => if k' = k then (k, v) :: rest else (k', v') :: mapPut rest k v

/-- The statement `delete(m, k)` on a string-keyed map. -/
def mapDel {β : Type} (m : List (String × β)) (k : String) : List (String × β) :=
  m.filter (fun e => !(e.1 == k))

/-- The keys of a string-keyed map, in iteration order. -/
def mapKeys {β : Type} (m : List (String × β)) : List String :=
  m.map Prod.fst

/-- Well-formedness of a list that stands for a Go map: no key occurs twice. -/
def KeysNodup {β : Type} (m : List (String × β)) : Prop :=
  (mapKeys m).Nodup

instance {β : Type} (m : List (String × β)) : Decidable (KeysNodup m) :=
  inferInstanceAs (Decidable (mapKeys m).Nodup)

/-- An interface-typed key equals the string `k` (same dynamic type, same value). -/
def keyIs (key : Value) (k : String) : Bool :=
  match key with
  | .str s => s == k
  | _ => false

/-- Reading `m[k]` from an interface-keyed map at a string key. -/
def imapGet (m : IMap) (k : String) : Option Value :=
  match m with
  | [] => none
  | (k', v) :: rest => if keyIs k' k then some v else imapGet rest k

/-- The assignment `m[k] = v` on an interface-keyed map at a string key. -/
def imapPut (m : IMap) (k : String) (v : Value) : IMap :=
  match m with
  | [] => [(.str k, v)]
  | (k', v') :: rest => if keyIs k' k then (.str k, v) :: rest else (k', v') :: imapPut rest k v

/-- The statement `delete(m, k)` on an interface-keyed map at a string key. -/
def imapDel (m : IMap) (k : String) : IMap :=
  m.filter (fun e => !(keyIs e.1 k))

/-- The type assertion `v.(map[string]interface{})` on the result of a map read. -/
def asSMap (v : Option Value) : Option SMap :=
  match v with
  | some (.smap m) => some m
  | _ => none

/-- The type assertion `v.(map[interface{}]interface{})` on the result of a map read. -/
def asIMap (v : Option Value) : Option IMap :=
  match v with
  | some (.imap m) => some m
  | _ => none

/-! ## External libraries -/

/-- The functions the program calls outside `src/`. Errors carry their `%v` rendering. -/
structure Lib where
  /-- The call `base64.StdEncoding.DecodeString`. -/
  base64Decode : String → Except String String
  /-- The call `json.Unmarshal(input, &jsonData)` with `jsonData : map[string]interface{}`;
  `none` is a non-nil error. -/
  jsonUnmarshal : String → Option SMap
  /-- The call `yaml.Unmarshal(input, &yamlData)` with
  `yamlData : map[interface{}]interface{}`; `none` is a non-nil error. -/
  yamlUnmarshal : String → Option IMap
  /-- The call `json.MarshalIndent(inputData, "", "  ")`. -/
  jsonMarshalIndent : SMap → Except String String
  /-- The call `yaml.Marshal(inputData)`. -/
  yamlMarshal : SMap → Except String String
  /-- The call `fmt.Sprintf("%v", key)`. -/
  sprintV : Value → String
  /-- The call `decode.DecodeDataMap(stringDataMap)` of the package `internal/decode`. -/
  decodeDataMap : List (String × String) → Except String Value

/-! ## `internal/format/format.go` -/

/-- The body of the loop `for key, value := range data` of `DecodeBase64Values`: the entries
still to visit, the current content of `stringData`; returns the error that ends the loop (if
any) and the content of `stringData` at that point. -/
def decodeLoop (lib : Lib) : SMap → SMap → Option String × SMap
  | [], stringData => (none, stringData)
  | (key, value) :: rest, stringData =>
    match value with
    | .str strValue =>
      match lib.base64Decode strValue with
      | .error err =>
        (some ("failed to decode base64 value for key " ++ key ++ ": " ++ err), stringData)
      | .ok decodedValue =>
        if (mapGet stringData key).isSome then decodeLoop lib rest stringData
        else decodeLoop lib rest (mapPut stringData key (.str decodedValue))
    | _ => (some ("data field contains a non-string value for key " ++ key), stringData)

/-- The function `DecodeBase64Values`: returns the error (`none` is `nil`) and the state of
`inputData` when the function returns. -/
def DecodeBase64Values (lib : Lib) (inputData : SMap) : Option String × SMap :=
  let data := asSMap (mapGet inputData "data")
  let stringData := asSMap (mapGet inputData "stringData")
  let inputData1 :=
    match stringData with
    | some _ => inputData
    | none => mapPut inputData "stringData" (.smap [])
  match data with
  | some data =>
    match decodeLoop lib data (stringData.getD []) with
    | (some err, stringData') => (some err, mapPut inputData1 "stringData" (.smap stringData'))
    | (none, stringData') =>
      (none, mapDel (mapPut inputData1 "stringData" (.smap stringData')) "data")
  | none => (none, inputData1)

/-- The predicate `unicode.IsSpace` that `strings.TrimSpace` trims with. -/
def isSpace (c : Char) : Bool :=
  let n := c.toNat
  (9 ≤ n && n ≤ 13) || n == 32 || n == 133 || n == 160 || n == 5760 ||
    (8192 ≤ n && n ≤ 8202) || n == 8232 || n == 8233 || n == 8239 || n == 8287 || n == 12288

/-- The call `strings.TrimSpace`. -/
def trimSpace (s : String) : String :=
  String.mk ((s.data.dropWhile isSpace).reverse.dropWhile isSpace).reverse

/-- The function `AssertFormat`, reading the process-wide `detectedFormat`. -/
def AssertFormat (detectedFormat : String) (input : String) : String :=
  if detectedFormat ≠ "" then detectedFormat
  else
    match (trimSpace input).data with
    | c :: _ => if c = '{' ∨ c = '[' then "json" else "yaml"
    | [] => ""

mutual
/-- The function `convertMap`. -/
def convertMap (lib : Lib) : Value → Value
  | .imap v => .smap (convertMapEntries lib v [])
  | .seq v => .seq (convertMapItems lib v)
  | m => m
/-- The loop `for i, item := range v` of `convertMap`. -/
def convertMapItems (lib : Lib) : List Value → List Value
  | [] => []
  | item :: rest => convertMap lib item :: convertMapItems lib rest
/-- The loop `for key, value := range v` of `convertMap`, filling `newMap`. -/
def convertMapEntries (lib : Lib) : List (Value × Value) → SMap → SMap
  | [], newMap => newMap
  | (key, value) :: rest, newMap =>
    convertMapEntries lib rest (mapPut newMap (lib.sprintV key) (convertMap lib value))
end

/-- The function `ParseInput`: returns the result and the new value of `detectedFormat`. The
type assertion on the result of `convertMap` cannot fail, since `convertMap` maps a map to a
string-keyed map; its failure branch stands for the panic of a failed assertion. -/
def ParseInput (lib : Lib) (detectedFormat : String) (input : String) :
    Except String SMap × String :=
  match lib.jsonUnmarshal input with
  | some jsonData => (.ok jsonData, "json")
  | none =>
    match lib.yamlUnmarshal input with
    | some yamlData =>
      match convertMap lib (.imap yamlData) with
      | .smap m => (.ok m, "yaml")
      | _ => (.error "interface conversion: interface {} is not map[string]interface {}", "yaml")
    | none =>
      (.error
        "failed to parse input as JSON or YAML. Use --output yaml|json to decode data.",
        detectedFormat)

/-- What `OutputResult` leaves behind: the returned error, the bytes written to standard
output and the state of `inputData`. -/
structure Output where
  err : Option String
  stdout : String
  inputData : SMap

/-- The function `OutputResult`. -/
def OutputResult (lib : Lib) (detectedFormat : String) (input : String) (inputData : SMap) :
    Output :=
  match DecodeBase64Values lib inputData with
  | (some err, inputData') => ⟨some err, "", inputData'⟩
  | (none, inputData') =>
    let format := AssertFormat detectedFormat input
    if format = "json" then
      match lib.jsonMarshalIndent inputData' with
      | .error err => ⟨some ("error encoding JSON: " ++ err), "", inputData'⟩
      | .ok output => ⟨none, output, inputData'⟩
    else if format = "yaml" then
      match lib.yamlMarshal inputData' with
      | .error err => ⟨some ("error encoding YAML: " ++ err), "", inputData'⟩
      | .ok output => ⟨none, output, inputData'⟩
    else ⟨some ("unknown format: " ++ format), "", inputData'⟩

/-! ## `internal/resource/resource.go` -/

/-- The loop `for k, v := range dataMap` of `ProcessResource`, filling `stringDataMap`. -/
def collectStringData : IMap → List (String × String) → List (String × String)
  | [], stringDataMap => stringDataMap
  | (k, v) :: rest, stringDataMap =>
    match k, v with
    | .str strKey, .str strValue => collectStringData rest (mapPut stringDataMap strKey strValue)
    | _, _ => collectStringData rest stringDataMap

/-- The function `ProcessResource`: returns the error and the state of `resource`. -/
def ProcessResource (lib : Lib) (resource : IMap) : Option String × IMap :=
  match asIMap (imapGet resource "data") with
  | some dataMap =>
    match lib.decodeDataMap (collectStringData dataMap []) with
    | .error err => (some err, resource)
    | .ok decodedData => (none, imapPut (imapDel resource "data") "stringData" decodedData)
  | none => (none, resource)

/-- The loop `for k, v := range inputData` that copies a document into a
`map[interface{}]interface{}`. -/
def toInterfaceMap (inputData : SMap) : IMap :=
  inputData.foldl (fun interfaceInputData e => imapPut interfaceInputData e.1 e.2) []

/-- The loop `for k, v := range interfaceInputData` that copies the entries with a string key
back into a `map[string]interface{}`. -/
def toStringMap (interfaceInputData : IMap) : SMap :=
  interfaceInputData.foldl
    (fun stringInputData e =>
      match e.1 with
      | .str strKey => mapPut stringInputData strKey e.2
      | _ => stringInputData) []

/-- The loop `for i, item := range items` of `HandleGetCommand`, from index `i` on: returns
the error that ends the loop (if any) and the state of the items. -/
def processItems (lib : Lib) : Nat → List Value → Option String × List Value
  | _, [] => (none, [])
  | i, item :: rest =>
    match item with
    | .imap itemMap =>
      match ProcessResource lib itemMap with
      | (some err, itemMap') =>
        (some ("error processing resource in items[" ++ toString i ++ "]: " ++ err),
          .imap itemMap' :: rest)
      | (none, itemMap') =>
        let r := processItems lib (i + 1) rest
        (r.1, .imap itemMap' :: r.2)
    | _ =>
      let r := processItems lib (i + 1) rest
      (r.1, item :: r.2)

/-- The branch `// Process resources` of `HandleGetCommand`. -/
def processResources (lib : Lib) (interfaceInputData : IMap) : Option String × IMap :=
  match imapGet interfaceInputData "kind" with
  | some (.str "List") =>
    match imapGet interfaceInputData "items" with
    | some (.seq items) =>
      let r := processItems lib 0 items
      (r.1, imapPut interfaceInputData "items" (.seq r.2))
    | _ => (none, interfaceInputData)
  | _ =>
    match ProcessResource lib interfaceInputData with
    | (some err, resource) => (some ("error processing resource: " ++ err), resource)
    | (none, resource) => (none, resource)

/-- A command executor: name and arguments to combined output and error. -/
abbrev Executor := String → List String → String × Option String

/-- What `HandleGetCommand` leaves behind: the returned error, the bytes written to standard
output and the invocations of the executor, in order. -/
structure GetResult where
  err : Option String
  stdout : String
  calls : List (String × List String)

/-- The function `HandleGetCommand`. -/
def HandleGetCommand (lib : Lib) (detectedFormat : String) (args : List String)
    (executor : Executor) : GetResult :=
  if args.length < 1 then ⟨some "resource type must be specified", "", []⟩
  else
    let calls := [("kubectl", "get" :: args)]
    match executor "kubectl" ("get" :: args) with
    | (cmdOutput, some err) =>
      ⟨some ("failed to execute kubectl command: " ++ err ++ "\nOutput: " ++ cmdOutput), "",
        calls⟩
    | (cmdOutput, none) =>
      match ParseInput lib detectedFormat cmdOutput with
      | (.error err, _) =>
        ⟨some ("input appeared to be neither json nor yaml: " ++ err), cmdOutput ++ "\n", calls⟩
      | (.ok inputData, detectedFormat') =>
        match processResources lib (toInterfaceMap inputData) with
        | (some err, _) => ⟨some err, "", calls⟩
        | (none, interfaceInputData) =>
          let out := OutputResult lib detectedFormat' cmdOutput (toStringMap interfaceInputData)
          ⟨out.err, out.stdout, calls⟩

/-! ## `cmd/cmd.go` -/

/-- What a run of the program leaves behind. -/
structure Outcome where
  stdout : String
  stderr : String
  exitCode : Nat

/-- The function `Execute`, started with `os.Args = osArgs`, the executor `executor` and the
result `stdin` of `io.ReadAll(os.Stdin)`; `detectedFormat` is initially empty. -/
def Execute (lib : Lib) (executor : Executor) (osArgs : List String)
    (stdin : Except String String) : Outcome :=
  if osArgs.length > 1 ∧ osArgs.get? 1 = some "get" then
    let r := HandleGetCommand lib "" (osArgs.drop 2) executor
    match r.err with
    | some err => ⟨r.stdout, "Error: " ++ err ++ "\n", 1⟩
    | none => ⟨r.stdout, "", 0⟩
  else
    match stdin with
    | .error err => ⟨"", "Error reading input: " ++ err ++ "\n", 1⟩
    | .ok input =>
      match ParseInput lib "" input with
      | (.error _, _) => ⟨input, "", 1⟩
      | (.ok inputData, detectedFormat) =>
        match ProcessResource lib (toInterfaceMap inputData) with
        | (some err, _) => ⟨"", "Error processing resource: " ++ err ++ "\n", 1⟩
        | (none, interfaceInputData) =>
          let out := OutputResult lib detectedFormat input (toStringMap interfaceInputData)
          match out.err with
          | some err => ⟨out.stdout, "Error outputting result: " ++ err ++ "\n", 1⟩
          | none => ⟨out.stdout, "", 0⟩

/-! ## A concrete library

The general theorems quantify over `Lib`.  The examples instantiate it with `exampleLib`: a
decoder for standard base64, parsers given by their results on the inputs of the examples, and
a compact serialiser that writes the entries of a map in list order. -/

/-- The value of a character of the standard base64 alphabet. -/
def b64Value (c : Char) : Option Nat :=
  let n := c.toNat
  if 65 ≤ n ∧ n ≤ 90 then some (n - 65)
  else if 97 ≤ n ∧ n ≤ 122 then some (n - 71)
  else if 48 ≤ n ∧ n ≤ 57 then some (n + 4)
  else if n = 43 then some 62
  else if n = 47 then some 63
  else none

/-- The bytes of one quantum of `dbuf.length` sextets. -/
def quantumBytes (dbuf : List Nat) : List Char :=
  let val := dbuf.getD 0 0 * 262144 + dbuf.getD 1 0 * 4096 + dbuf.getD 2 0 * 64 + dbuf.getD 3 0
  ([val / 65536 % 256, val / 256 % 256, val % 256].take (dbuf.length - 1)).map Char.ofNat

/-- The rendering of `base64.CorruptInputError`. -/
def corruptInputError (n : Nat) : String :=
  "illegal base64 data at input byte " ++ toString n

/-- The decoding loop of `base64.StdEncoding` over the input still to read, at offset `si`,
with the sextets `dbuf` of the current quantum and the bytes `out` decoded so far. Line breaks
are skipped; `mode` is 0 before padding, 1 after the first of two padding characters and 2
after the padding. -/
def stdDecodeAux : List Char → Nat → Nat → List Nat → List Char → Except String (List Char)
  | [], si, mode, dbuf, out =>
    if mode = 0 then
      if dbuf.length = 0 then .ok out else .error (corruptInputError (si - dbuf.length))
    else if mode = 1 then .error (corruptInputError si)
    else .ok (out ++ quantumBytes dbuf)
  | c :: cs, si, mode, dbuf, out =>
    if c = '\n' ∨ c = '\r' then stdDecodeAux cs (si + 1) mode dbuf out
    else if mode = 0 then
      match b64Value c with
      | some v =>
        if dbuf.length = 3 then stdDecodeAux cs (si + 1) 0 [] (out ++ quantumBytes (dbuf ++ [v]))
        else stdDecodeAux cs (si + 1) 0 (dbuf ++ [v]) out
      | none =>
        if c ≠ '=' then .error (corruptInputError si)
        else if dbuf.length < 2 then .error (corruptInputError si)
        else if dbuf.length = 2 then stdDecodeAux cs (si + 1) 1 dbuf out
        else stdDecodeAux cs (si + 1) 2 dbuf out
    else if mode = 1 then
      if c = '=' then stdDecodeAux cs (si + 1) 2 dbuf out
      else .error (corruptInputError (si - 1))
    else .error (corruptInputError si)

/-- The call `base64.StdEncoding.DecodeString` on text whose decoding is text as well: padding
is required, trailing bits are not checked. -/
def stdDecodeString (s : String) : Except String String :=
  match stdDecodeAux s.data 0 0 [] [] with
  | .ok out => .ok (String.mk out)
  | .error err => .error err


/-- An example of `fmt.Sprintf("%v", key)`: exact on strings, integers, booleans and nil. -/
def exampleSprintV (key : Value) : String :=
  match key with
  | .str s => s
  | .int n => toString n
  | .bool b => toString b
  | .null => "<nil>"
  | _ => "?"

mutual
/-- A value holds a `map[interface{}]interface{}`, which `encoding/json` cannot encode. -/
def hasIMap : Value → Bool
  | .imap _ => true
  | .seq xs => hasIMapItems xs
  | .smap m => hasIMapEntries m
  | _ => false
/-- Some item of a sequence holds a `map[interface{}]interface{}`. -/
def hasIMapItems : List Value → Bool
  | [] => false
  | x :: xs => hasIMap x || hasIMapItems xs
/-- Some entry of a map holds a `map[interface{}]interface{}`. -/
def hasIMapEntries : List (String × Value) → Bool
  | [] => false
  | (_, v) :: rest => hasIMap v || hasIMapEntries rest
end

mutual
/-- A compact rendering of a value; `quote` selects the JSON style (quoted strings, no blank
after a separator) instead of the YAML flow style. -/
def renderValue (quote : Bool) : Value → String
  | .null => "null"
  | .bool b => toString b
  | .int n => toString n
  | .float bits => "float64(" ++ toString bits ++ ")"
  | .str s => if quote then "\"" ++ s ++ "\"" else s
  | .seq xs => "[" ++ renderItems quote xs ++ "]"
  | .smap m => "\x7b" ++ renderEntries quote m ++ "\x7d"
  | .imap m => "\x7b" ++ renderIEntries quote m ++ "\x7d"
/-- The items of a sequence, separated by commas. -/
def renderItems (quote : Bool) : List Value → String
  | [] => ""
  | x :: rest =>
    renderValue quote x ++ (if rest.isEmpty then "" else if quote then "," else ", ") ++
      renderItems quote rest
/-- The entries of a string-keyed map, separated by commas. -/
def renderEntries (quote : Bool) : List (String × Value) → String
  | [] => ""
  | (k, v) :: rest =>
    (if quote then "\"" ++ k ++ "\"" else k) ++ (if quote then ":" else ": ") ++
      renderValue quote v ++
      (if rest.isEmpty then "" else if quote then "," else ", ") ++ renderEntries quote rest
/-- The entries of an interface-keyed map, separated by commas. -/
def renderIEntries (quote : Bool) : List (Value × Value) → String
  | [] => ""
  | (k, v) :: rest =>
    renderValue quote k ++ (if quote then ":" else ": ") ++ renderValue quote v ++
      (if rest.isEmpty then "" else if quote then "," else ", ") ++ renderIEntries quote rest
end

/-- An example of `json.MarshalIndent`: compact, entries in list order. -/
def exampleJsonMarshal (inputData : SMap) : Except String String :=
  if hasIMap (.smap inputData) then .error "json: unsupported type: map[interface {}]interface {}"
  else .ok (renderValue true (.smap inputData))

/-- An example of `yaml.Marshal`: flow style, entries in list order. -/
def exampleYamlMarshal (inputData : SMap) : Except String String :=
  .ok (renderValue false (.smap inputData) ++ "\n")

/-- The loop of `exampleDecodeDataMap` over the entries of `stringDataMap`. -/
def exampleDecodeEntries : List (String × String) → SMap → Except String SMap
  | [], decoded => .ok decoded
  | (k, v) :: rest, decoded =>
    match stdDecodeString v with
    | .error err => .error ("failed to decode base64 value for key " ++ k ++ ": " ++ err)
    | .ok d => exampleDecodeEntries rest (mapPut decoded k (.str d))

/-- Modelled from the spec: the package `internal/decode` is not among the sources; its
`DecodeDataMap` decodes every value of the map with the standard transfer encoding and fails
at the first malformed one. -/
def exampleDecodeDataMap (stringDataMap : List (String × String)) : Except String Value :=
  match exampleDecodeEntries stringDataMap [] with
  | .ok decoded => .ok (.smap decoded)
  | .error err => .error err

/-- The document of the test `TestParseJsonSecret`. -/
def secretDoc : SMap :=
  [("apiVersion", .str "v1"), ("kind", .str "Secret"),
   ("metadata", .smap [("name", .str "my-secret")]),
   ("data", .smap [("key1", .str "dmFsdWUx"), ("key2", .str "dmFsdWUy")]),
   ("stringData", .smap [("key3", .str "value3")])]

/-- The input of the test `TestParseJsonSecret`, without insignificant white space. -/
def secretJson : String :=
  "\x7b\"apiVersion\":\"v1\",\"kind\":\"Secret\",\"metadata\":\x7b\"name\":\"my-secret\"\x7d," ++
  "\"data\":\x7b\"key1\":\"dmFsdWUx\",\"key2\":\"dmFsdWUy\"\x7d," ++
  "\"stringData\":\x7b\"key3\":\"value3\"\x7d\x7d"

/-- The document of the tests `TestRoundTripJson` and `TestRoundTripYaml`. -/
def roundTripDoc : SMap :=
  [("apiVersion", .str "v1"), ("kind", .str "Secret"),
   ("metadata", .smap [("name", .str "my-secret")]),
   ("stringData", .smap [("key1", .str "value1"), ("key2", .str "value2")])]

/-- The input of the test `TestRoundTripJson`, without insignificant white space. -/
def roundTripJson : String :=
  "\x7b\"apiVersion\":\"v1\",\"kind\":\"Secret\",\"metadata\":\x7b\"name\":\"my-secret\"\x7d," ++
  "\"stringData\":\x7b\"key1\":\"value1\",\"key2\":\"value2\"\x7d\x7d"

/-- The input of the test `TestRoundTripYaml`, without the common indentation. -/
def roundTripYaml : String :=
  "apiVersion: v1\nkind: Secret\nmetadata:\n  name: my-secret\n" ++
  "stringData:\n  key1: value1\n  key2: value2\n"

/-- What `yaml.Unmarshal` builds from `roundTripYaml`. -/
def roundTripYamlData : IMap :=
  [(.str "apiVersion", .str "v1"), (.str "kind", .str "Secret"),
   (.str "metadata", .imap [(.str "name", .str "my-secret")]),
   (.str "stringData", .imap [(.str "key1", .str "value1"), (.str "key2", .str "value2")])]

/-- A list of two secrets as `kubectl get secrets -o json` prints it: the first with a valid
payload, the second with a malformed one. -/
def listDoc : SMap :=
  [("apiVersion", .str "v1"), ("kind", .str "List"),
   ("items", .seq
     [.smap [("kind", .str "Secret"), ("data", .smap [("key1", .str "dmFsdWUx")])],
      .smap [("kind", .str "Secret"), ("data", .smap [("key2", .str "not-base64!!")])]])]

/-- The text of `listDoc`. -/
def listJson : String :=
  "\x7b\"apiVersion\":\"v1\",\"kind\":\"List\",\"items\":[" ++
  "\x7b\"kind\":\"Secret\",\"data\":\x7b\"key1\":\"dmFsdWUx\"\x7d\x7d," ++
  "\x7b\"kind\":\"Secret\",\"data\":\x7b\"key2\":\"not-base64!!\"\x7d\x7d]\x7d"

/-- The input of the test `TestInvalidJson`. -/
def invalidJson : String :=
  "\x7b \"apiVersion\": \"v1\", \"kind\": \"Secret\", \"data\": \x7b \"key1\": \"dmFsdWUx\" "

/-- The malformed-encoding example of the specification: `data: {"k1": "not-base64!!"}`. -/
def malformedDoc : SMap :=
  [("kind", .str "Secret"), ("data", .smap [("k1", .str "not-base64!!")])]

/-- A document whose `data` holds a valid entry, visited first, and a malformed one. -/
def halfValidDoc : SMap :=
  [("kind", .str "Secret"),
   ("data", .smap [("k0", .str "dmFsdWUx"), ("k1", .str "not-base64!!")])]

/-- What `yaml.Unmarshal` builds from the input of the test `TestParseYamlSecret`. -/
def secretYamlData : IMap :=
  [(.str "apiVersion", .str "v1"), (.str "kind", .str "Secret"),
   (.str "metadata", .imap [(.str "name", .str "my-secret")]),
   (.str "data", .imap [(.str "key1", .str "dmFsdWUx"), (.str "key2", .str "dmFsdWUy")]),
   (.str "stringData", .imap [(.str "key3", .str "value3")])]

/-- A resource whose `data`, as `yaml.Unmarshal` may build it, holds a string entry, an entry
with an integer key and an entry with an integer value. -/
def mixedResource : IMap :=
  [(.str "kind", .str "Secret"),
   (.str "data", .imap [(.str "key1", .str "dmFsdWUx"), (.int 3, .str "eA=="),
     (.str "count", .int 4)])]

/-- A document whose `data` holds a valid entry, a malformed one and another valid one,
visited in that order. -/
def threeEntryDoc : SMap :=
  [("kind", .str "Secret"),
   ("data", .smap [("k0", .str "dmFsdWUx"), ("k1", .str "not-base64!!"),
     ("k2", .str "dmFsdWUy")])]

/-- The results of `json.Unmarshal` on the inputs of the examples. -/
def exampleJsonUnmarshal (input : String) : Option SMap :=
  if input = secretJson then some secretDoc
  else if input = roundTripJson then some roundTripDoc
  else if input = listJson then some listDoc
  else none

/-- The results of `yaml.Unmarshal` on the inputs of the examples. -/
def exampleYamlUnmarshal (input : String) : Option IMap :=
  if input = roundTripYaml then some roundTripYamlData
  else none

/-- The library of the examples. -/
def exampleLib : Lib :=
  ⟨stdDecodeString, exampleJsonUnmarshal, exampleYamlUnmarshal, exampleJsonMarshal,
    exampleYamlMarshal, exampleSprintV, exampleDecodeDataMap⟩

/-! ## Specification vocabulary -/

/-- A value is a string that `base64.StdEncoding` decodes without error. -/
def decodesOk (lib : Lib) (v : Value) : Bool :=
  match v with
  | .str s =>
    match lib.base64Decode s with
    | .ok _ => true
    | .error _ => false
  | _ => false

/-- A value is a string. -/
def isStr (v : Value) : Bool :=
  match v with
  | .str _ => true
  | _ => false

/-- A value is a scalar (nil, boolean, number or string). -/
def isScalar (v : Value) : Bool :=
  match v with
  | .seq _ => false
  | .smap _ => false
  | .imap _ => false
  | _ => true

mutual
/-- A value holds no `map[interface{}]interface{}` at any depth: every mapping in it is
string-keyed. -/
def stringKeyed : Value → Bool
  | .imap _ => false
  | .seq xs => stringKeyedItems xs
  | .smap m => stringKeyedEntries m
  | _ => true
/-- Every item of a sequence is `stringKeyed`. -/
def stringKeyedItems : List Value → Bool
  | [] => true
  | x :: xs => stringKeyed x && stringKeyedItems xs
/-- Every value of a string-keyed map is `stringKeyed`. -/
def stringKeyedEntries : List (String × Value) → Bool
  | [] => true
  | (_, v) :: rest => stringKeyed v && stringKeyedEntries rest
end

mutual
/-- A value has the shape `yaml.Unmarshal` produces: it is built from interface-keyed
mappings, sequences and scalars. -/
def yamlShaped : Value → Bool
  | .smap _ => false
  | .seq xs => yamlShapedItems xs
  | .imap m => yamlShapedEntries m
  | _ => true
/-- Every item of a sequence is `yamlShaped`. -/
def yamlShapedItems : List Value → Bool
  | [] => true
  | x :: xs => yamlShaped x && yamlShapedItems xs
/-- Every value of an interface-keyed map is `yamlShaped`. -/
def yamlShapedEntries : List (Value × Value) → Bool
  | [] => true
  | (_, v) :: rest => yamlShaped v && yamlShapedEntries rest
end

/-- An entry of `data` whose key is a string and whose value is a string, as a pair of
strings. -/
def stringEntry (e : Value × Value) : Option (String × String) :=
  match e with
  | (.str k, .str v) => some (k, v)
  | _ => none

/-! ## Lemmas on maps -/

theorem mapGet_mapPut_self {β : Type} (m : List (String × β)) (k : String) (v : β) :
    mapGet (mapPut m k v) k = some v := by
  induction m with
  | nil => simp [mapPut, mapGet]
  | cons e rest ih =>
    obtain ⟨k', v'⟩ := e
    by_cases h : k' = k
    · simp [mapPut, mapGet, h]
    · simp [mapPut, mapGet, h, ih]

theorem mapGet_mapPut_ne {β : Type} (m : List (String × β)) (k k' : String) (v : β)
    (hne : k' ≠ k) : mapGet (mapPut m k v) k' = mapGet m k' := by
  induction m with
  | nil => simp [mapPut, mapGet, Ne.symm hne]
  | cons e rest ih =>
    obtain ⟨k0, v0⟩ := e
    by_cases h : k0 = k
    · subst h
      simp [mapPut, mapGet, Ne.symm hne]
    · by_cases h' : k0 = k'
      · subst h'
        simp [mapPut, mapGet, h]
      · simp [mapPut, mapGet, h, h', ih]

theorem mapGet_mapDel_self {β : Type} (m : List (String × β)) (k : String) :
    mapGet (mapDel m k) k = none := by
  induction m with
  | nil => simp [mapDel, mapGet]
  | cons e rest ih =>
    obtain ⟨k0, v0⟩ := e
    by_cases h : k0 = k
    · simpa [mapDel, List.filter_cons, h] using ih
    · simpa [mapDel, List.filter_cons, h, mapGet] using ih

theorem mapGet_mapDel_ne {β : Type} (m : List (String × β)) (k k' : String) (hne : k' ≠ k) :
    mapGet (mapDel m k) k' = mapGet m k' := by
  induction m with
  | nil => simp [mapDel, mapGet]
  | cons e rest ih =>
    obtain ⟨k0, v0⟩ := e
    by_cases h : k0 = k
    · subst h
      simpa [mapDel, List.filter_cons, mapGet, Ne.symm hne] using ih
    · by_cases h' : k0 = k'
      · subst h'
        simp [mapDel, List.filter_cons, h, mapGet]
      · simpa [mapDel, List.filter_cons, h, mapGet, h'] using ih

theorem mapPut_of_mapGet {β : Type} (m : List (String × β)) (k : String) (v : β)
    (h : mapGet m k = some v) : mapPut m k v = m := by
  induction m with
  | nil => simp [mapGet] at h
  | cons e rest ih =>
    obtain ⟨k0, v0⟩ := e
    by_cases hk : k0 = k
    · subst hk
      simp [mapGet] at h
      simp [mapPut, h]
    · simp [mapGet, hk] at h
      simp [mapPut, hk, ih h]

theorem mapGet_isSome_iff_mem_keys {β : Type} (m : List (String × β)) (k : String) :
    (mapGet m k).isSome = true ↔ k ∈ mapKeys m := by
  induction m with
  | nil => simp [mapGet, mapKeys]
  | cons e rest ih =>
    obtain ⟨k0, v0⟩ := e
    by_cases hk : k0 = k
    · simp [mapGet, mapKeys, hk]
    · have hk' : ¬ k = k0 := fun h => hk h.symm
      simpa [mapGet, mapKeys, hk, hk'] using ih

theorem mapGet_mem {β : Type} (m : List (String × β)) (k : String) (v : β)
    (h : mapGet m k = some v) : (k, v) ∈ m := by
  induction m with
  | nil => simp [mapGet] at h
  | cons e rest ih =>
    obtain ⟨k0, v0⟩ := e
    by_cases hk : k0 = k
    · subst hk
      simp [mapGet] at h
      simp [h]
    · simp [mapGet, hk] at h
      exact List.mem_cons_of_mem _ (ih h)

/-! ## Lemmas on the decode loop -/

theorem decodeLoop_keeps (lib : Lib) (data sd : SMap) (k : String) (v : Value)
    (h : mapGet sd k = some v) : mapGet (decodeLoop lib data sd).2 k = some v := by
  induction data generalizing sd with
  | nil => simpa [decodeLoop] using h
  | cons e rest ih =>
    obtain ⟨key, value⟩ := e
    cases value with
    | str s =>
      simp only [decodeLoop]
      cases hd : lib.base64Decode s with
      | error err => simpa using h
      | ok d =>
        simp only
        split
        · exact ih sd h
        · rename_i hnot
          apply ih
          have hne : k ≠ key := by
            rintro rfl
            simp [h] at hnot
          rw [mapGet_mapPut_ne _ _ _ _ hne]
          exact h
    | _ => simpa [decodeLoop] using h

theorem decodeLoop_ok_iff (lib : Lib) (data sd : SMap) :
    (decodeLoop lib data sd).1 = none ↔ ∀ e ∈ data, decodesOk lib e.2 = true := by
  induction data generalizing sd with
  | nil => simp [decodeLoop]
  | cons e rest ih =>
    obtain ⟨key, value⟩ := e
    cases value with
    | str s =>
      simp only [decodeLoop]
      cases hd : lib.base64Decode s with
      | error err => simp [decodesOk, hd]
      | ok d =>
        simp only
        split
        · simp [ih, decodesOk, hd]
        · simp [ih, decodesOk, hd]
    | _ => simp [decodeLoop, decodesOk]

theorem decodeLoop_err_msg (lib : Lib) (data sd : SMap) (msg : String)
    (h : (decodeLoop lib data sd).1 = some msg) :
    ∃ e ∈ data,
      (isStr e.2 = false ∧ msg = "data field contains a non-string value for key " ++ e.1) ∨
      (∃ s err, e.2 = .str s ∧ lib.base64Decode s = .error err ∧
        msg = "failed to decode base64 value for key " ++ e.1 ++ ": " ++ err) := by
  induction data generalizing sd with
  | nil => simp [decodeLoop] at h
  | cons e rest ih =>
    obtain ⟨key, value⟩ := e
    have step : ∀ sd', (decodeLoop lib rest sd').1 = some msg →
        ∃ e ∈ (key, value) :: rest,
          (isStr e.2 = false ∧
            msg = "data field contains a non-string value for key " ++ e.1) ∨
          (∃ s err, e.2 = .str s ∧ lib.base64Decode s = .error err ∧
            msg = "failed to decode base64 value for key " ++ e.1 ++ ": " ++ err) := by
      intro sd' h'
      obtain ⟨e, he, hprop⟩ := ih sd' h'
      exact ⟨e, List.mem_cons_of_mem _ he, hprop⟩
    have here : msg = "data field contains a non-string value for key " ++ key →
        isStr value = false →
        ∃ e ∈ (key, value) :: rest,
          (isStr e.2 = false ∧
            msg = "data field contains a non-string value for key " ++ e.1) ∨
          (∃ s err, e.2 = .str s ∧ lib.base64Decode s = .error err ∧
            msg = "failed to decode base64 value for key " ++ e.1 ++ ": " ++ err) := by
      intro hm hs
      exact ⟨(key, value), List.mem_cons_self _ _, Or.inl ⟨hs, hm⟩⟩
    cases value with
    | str s =>
      simp only [decodeLoop] at h
      cases hd : lib.base64Decode s with
      | error err =>
        rw [hd] at h
        simp only [Option.some.injEq] at h
        exact ⟨(key, .str s), List.mem_cons_self _ _, Or.inr ⟨s, err, rfl, hd, h.symm⟩⟩
      | ok d =>
        rw [hd] at h
        simp only at h
        split at h
        · exact step _ h
        · exact step _ h
    | null => exact here (by simpa [decodeLoop] using h.symm) rfl
    | bool b => exact here (by simpa [decodeLoop] using h.symm) rfl
    | int n => exact here (by simpa [decodeLoop] using h.symm) rfl
    | float b => exact here (by simpa [decodeLoop] using h.symm) rfl
    | seq xs => exact here (by simpa [decodeLoop] using h.symm) rfl
    | smap m => exact here (by simpa [decodeLoop] using h.symm) rfl
    | imap m => exact here (by simpa [decodeLoop] using h.symm) rfl

theorem decodeLoop_decoded (lib : Lib) (data sd : SMap) (k s : String)
    (hok : (decodeLoop lib data sd).1 = none)
    (hk : mapGet data k = some (.str s)) (hfresh : mapGet sd k = none) :
    ∃ d, lib.base64Decode s = .ok d ∧ mapGet (decodeLoop lib data sd).2 k = some (.str d) := by
  induction data generalizing sd with
  | nil => simp [mapGet] at hk
  | cons e rest ih =>
    obtain ⟨key, value⟩ := e
    cases value with
    | str s0 =>
      simp only [decodeLoop] at hok ⊢
      cases hd : lib.base64Decode s0 with
      | error err =>
        rw [hd] at hok
        simp at hok
      | ok d =>
        rw [hd] at hok
        simp only at hok ⊢
        by_cases hkey : key = k
        · subst hkey
          simp only [mapGet, if_true, Option.some.injEq, Value.str.injEq] at hk
          subst hk
          simp only [hfresh, Option.isSome_none, Bool.false_eq_true, if_false] at hok ⊢
          exact ⟨d, hd, decodeLoop_keeps lib rest _ key _ (mapGet_mapPut_self sd key _)⟩
        · simp only [mapGet, hkey, if_false] at hk
          split
          · rename_i hsome
            rw [if_pos hsome] at hok
            exact ih sd hok hk hfresh
          · rename_i hnone
            rw [if_neg hnone] at hok
            refine ih _ hok hk ?_
            rw [mapGet_mapPut_ne _ _ _ _ (Ne.symm hkey)]
            exact hfresh
    | null => simp [decodeLoop] at hok
    | bool b => simp [decodeLoop] at hok
    | int n => simp [decodeLoop] at hok
    | float b => simp [decodeLoop] at hok
    | seq xs => simp [decodeLoop] at hok
    | smap m => simp [decodeLoop] at hok
    | imap m => simp [decodeLoop] at hok

/-! ## The decode-merge step `DecodeBase64Values` -/

theorem mapPut_mapPut_same {β : Type} (m : List (String × β)) (k : String) (a b : β) :
    mapPut (mapPut m k a) k b = mapPut m k b := by
  induction m with
  | nil => simp [mapPut]
  | cons e rest ih =>
    obtain ⟨k0, v0⟩ := e
    by_cases hk : k0 = k
    · simp [mapPut, hk]
    · simp [mapPut, hk, ih]

/-- With a `data` mapping, the step runs the loop on the pre-existing `stringData` (or on a
fresh map) and leaves the result under `stringData`; `data` is deleted when no entry fails. -/
theorem DecodeBase64Values_of_data (lib : Lib) (inputData data : SMap)
    (hdata : mapGet inputData "data" = some (.smap data)) :
    DecodeBase64Values lib inputData =
      match decodeLoop lib data ((asSMap (mapGet inputData "stringData")).getD []) with
      | (some err, sd) => (some err, mapPut inputData "stringData" (.smap sd))
      | (none, sd) => (none, mapDel (mapPut inputData "stringData" (.smap sd)) "data") := by
  unfold DecodeBase64Values
  simp only [hdata, asSMap]
  cases hsd : asSMap (mapGet inputData "stringData") with
  | some sd0 => simp only [asSMap] at hsd; simp only [hsd]
  | none =>
    simp only [asSMap] at hsd
    simp only [hsd, mapPut_mapPut_same]

/-- Without a `data` mapping, the step only makes sure that `stringData` is a mapping. -/
theorem DecodeBase64Values_of_no_data (lib : Lib) (inputData : SMap)
    (hdata : asSMap (mapGet inputData "data") = none) :
    DecodeBase64Values lib inputData =
      (none,
        match asSMap (mapGet inputData "stringData") with
        | some _ => inputData
        | none => mapPut inputData "stringData" (.smap [])) := by
  unfold DecodeBase64Values
  simp only [hdata]

/-- C1 (decode correctness). When `data` is a string-keyed mapping all of whose values are
valid standard base64 strings, `DecodeBase64Values` returns no error, and afterwards
`stringData` is a mapping in which every key of `data` that was not present in a pre-existing
`stringData` mapping holds exactly the decoding of its value in `data`. -/
theorem decode_correctness (lib : Lib) (inputData data : SMap)
    (hdata : mapGet inputData "data" = some (.smap data))
    (hvalid : ∀ e ∈ data, decodesOk lib e.2 = true) :
    (DecodeBase64Values lib inputData).1 = none ∧
    ∃ stringData', mapGet (DecodeBase64Values lib inputData).2 "stringData"
        = some (.smap stringData') ∧
      ∀ k, k ∈ mapKeys data →
        (∀ sd, mapGet inputData "stringData" = some (.smap sd) → mapGet sd k = none) →
        ∃ s d, mapGet data k = some (.str s) ∧ lib.base64Decode s = .ok d ∧
          mapGet stringData' k = some (.str d) := by
  have hok := (decodeLoop_ok_iff lib data
    ((asSMap (mapGet inputData "stringData")).getD [])).2 hvalid
  rw [DecodeBase64Values_of_data lib inputData data hdata]
  generalize hr : decodeLoop lib data ((asSMap (mapGet inputData "stringData")).getD []) = r
    at hok
  obtain ⟨err, sd'⟩ := r
  simp only at hok
  subst hok
  refine ⟨rfl, sd', ?_, ?_⟩
  · simp only
    rw [mapGet_mapDel_ne _ _ _ (by decide), mapGet_mapPut_self]
  · intro k hk hfresh
    obtain ⟨v, hv⟩ := Option.isSome_iff_exists.1 ((mapGet_isSome_iff_mem_keys data k).2 hk)
    have hmem := mapGet_mem data k v hv
    have hval := hvalid (k, v) hmem
    cases v with
    | str s =>
      have hfresh' : mapGet ((asSMap (mapGet inputData "stringData")).getD []) k = none := by
        cases hsd : mapGet inputData "stringData" with
        | none => simp [asSMap, mapGet]
        | some w =>
          cases w with
          | smap sd => simpa [asSMap] using hfresh sd hsd
          | _ => simp [asSMap, mapGet]
      obtain ⟨d, hd, hget⟩ := decodeLoop_decoded lib data _ k s (by rw [hr]) hv hfresh'
      rw [hr] at hget
      exact ⟨s, d, hv, hd, hget⟩
    | _ => simp [decodesOk] at hval

/-- C2 (merge precedence). When the document has a `data` mapping and a pre-existing
`stringData` mapping and `DecodeBase64Values` succeeds, every key of the pre-existing
`stringData` still maps to its previous value, also when the key occurs in `data`. -/
theorem merge_precedence (lib : Lib) (inputData data stringData : SMap)
    (hdata : mapGet inputData "data" = some (.smap data))
    (hsd : mapGet inputData "stringData" = some (.smap stringData))
    (hok : (DecodeBase64Values lib inputData).1 = none) :
    ∃ stringData', mapGet (DecodeBase64Values lib inputData).2 "stringData"
        = some (.smap stringData') ∧
      ∀ k v, mapGet stringData k = some v → mapGet stringData' k = some v := by
  rw [DecodeBase64Values_of_data lib inputData data hdata] at hok ⊢
  simp only [hsd, asSMap, Option.getD_some] at hok ⊢
  have hkeep := decodeLoop_keeps lib data stringData
  generalize decodeLoop lib data stringData = r at hok hkeep
  obtain ⟨err, sd'⟩ := r
  cases err with
  | some e => simp at hok
  | none =>
    refine ⟨sd', ?_, fun k v h => hkeep k v h⟩
    simp only
    rw [mapGet_mapDel_ne _ _ _ (by decide), mapGet_mapPut_self]

/-- C3 as stated fails: a document whose `data` key holds a string is accepted without error
and keeps its `data` key. -/
theorem field_removal_needs_mapping :
    mapGet [("kind", Value.str "Secret"), ("data", Value.str "x")] "data" ≠ none ∧
    (DecodeBase64Values exampleLib [("kind", .str "Secret"), ("data", .str "x")]).1 = none ∧
    mapGet (DecodeBase64Values exampleLib [("kind", .str "Secret"), ("data", .str "x")]).2 "data"
      = some (.str "x") := by
  refine ⟨by simp [mapGet], rfl, rfl⟩

/-- C3 (field removal, amended). When `data` is a string-keyed mapping and
`DecodeBase64Values` returns without error, the resulting document has no `data` key. -/
theorem field_removal (lib : Lib) (inputData data : SMap)
    (hdata : mapGet inputData "data" = some (.smap data))
    (hok : (DecodeBase64Values lib inputData).1 = none) :
    mapGet (DecodeBase64Values lib inputData).2 "data" = none := by
  rw [DecodeBase64Values_of_data lib inputData data hdata] at hok ⊢
  generalize decodeLoop lib data ((asSMap (mapGet inputData "stringData")).getD []) = r at hok
  obtain ⟨err, sd'⟩ := r
  cases err with
  | some e => simp at hok
  | none => exact mapGet_mapDel_self _ _

/-- The theorem `decode_correctness` at the document of `TestParseJsonSecret`. -/
theorem decode_correctness_witness :
    mapGet secretDoc "data"
      = some (.smap [("key1", .str "dmFsdWUx"), ("key2", .str "dmFsdWUy")]) ∧
    (DecodeBase64Values exampleLib secretDoc).1 = none ∧
    ∃ stringData', mapGet (DecodeBase64Values exampleLib secretDoc).2 "stringData"
        = some (.smap stringData') ∧
      ∀ k, k ∈ mapKeys [("key1", Value.str "dmFsdWUx"), ("key2", Value.str "dmFsdWUy")] →
        (∀ sd, mapGet secretDoc "stringData" = some (.smap sd) → mapGet sd k = none) →
        ∃ s d, mapGet [("key1", Value.str "dmFsdWUx"), ("key2", Value.str "dmFsdWUy")] k
            = some (.str s) ∧
          exampleLib.base64Decode s = .ok d ∧ mapGet stringData' k = some (.str d) :=
  ⟨rfl, decode_correctness exampleLib secretDoc
    [("key1", .str "dmFsdWUx"), ("key2", .str "dmFsdWUy")] rfl
    (by
      intro e he
      simp only [List.mem_cons, List.mem_singleton, List.not_mem_nil, or_false] at he
      rcases he with rfl | rfl <;> rfl)⟩

/-- The theorem `merge_precedence` at a document whose key `key1` occurs in both mappings. -/
theorem merge_precedence_witness :
    (DecodeBase64Values exampleLib
      [("data", .smap [("key1", .str "dmFsdWUx")]),
       ("stringData", .smap [("key1", .str "kept")])]).1 = none ∧
    ∃ stringData', mapGet (DecodeBase64Values exampleLib
        [("data", .smap [("key1", .str "dmFsdWUx")]),
         ("stringData", .smap [("key1", .str "kept")])]).2 "stringData"
        = some (.smap stringData') ∧
      ∀ k v, mapGet [("key1", Value.str "kept")] k = some v → mapGet stringData' k = some v :=
  ⟨rfl, merge_precedence exampleLib
    [("data", .smap [("key1", .str "dmFsdWUx")]), ("stringData", .smap [("key1", .str "kept")])]
    [("key1", .str "dmFsdWUx")] [("key1", .str "kept")] rfl rfl rfl⟩

/-- The theorem `field_removal` at the document of `TestParseJsonSecret`. -/
theorem field_removal_witness :
    (DecodeBase64Values exampleLib secretDoc).1 = none ∧
    mapGet (DecodeBase64Values exampleLib secretDoc).2 "data" = none :=
  ⟨rfl, field_removal exampleLib secretDoc
    [("key1", .str "dmFsdWUx"), ("key2", .str "dmFsdWUy")] rfl rfl⟩

/-- C5 as stated fails: a document without `data` and without `stringData` is not left
unchanged, it gains an empty `stringData` mapping. -/
theorem no_data_still_adds_stringData :
    mapGet [("kind", Value.str "Secret")] "data" = none ∧
    (DecodeBase64Values exampleLib [("kind", .str "Secret")]).1 = none ∧
    mapGet [("kind", Value.str "Secret")] "stringData" = none ∧
    mapGet (DecodeBase64Values exampleLib [("kind", .str "Secret")]).2 "stringData"
      = some (.smap []) :=
  ⟨rfl, rfl, rfl, rfl⟩

/-- C5 (no-op without `data`, amended). When `data` is absent or is not a string-keyed
mapping, `DecodeBase64Values` returns no error; the document is exactly unchanged when
`stringData` is a string-keyed mapping, and otherwise the only change is that `stringData` is
set to an empty mapping. -/
theorem no_data_frame (lib : Lib) (inputData : SMap)
    (hdata : asSMap (mapGet inputData "data") = none) :
    (DecodeBase64Values lib inputData).1 = none ∧
    (∀ sd, mapGet inputData "stringData" = some (.smap sd) →
      (DecodeBase64Values lib inputData).2 = inputData) ∧
    (asSMap (mapGet inputData "stringData") = none →
      (DecodeBase64Values lib inputData).2 = mapPut inputData "stringData" (.smap []) ∧
      ∀ k, k ≠ "stringData" →
        mapGet (DecodeBase64Values lib inputData).2 k = mapGet inputData k) := by
  rw [DecodeBase64Values_of_no_data lib inputData hdata]
  refine ⟨rfl, ?_, ?_⟩
  · intro sd hsd
    simp only [hsd, asSMap]
  · intro hnone
    simp only [hnone, true_and]
    exact fun k hk => mapGet_mapPut_ne _ _ _ _ hk

/-- The theorem `no_data_frame` at the document of the round-trip tests, which has no `data`
and a `stringData` mapping. -/
theorem no_data_frame_witness :
    asSMap (mapGet roundTripDoc "data") = none ∧
    (DecodeBase64Values exampleLib roundTripDoc).1 = none ∧
    (DecodeBase64Values exampleLib roundTripDoc).2 = roundTripDoc :=
  ⟨rfl, (no_data_frame exampleLib roundTripDoc rfl).1,
    (no_data_frame exampleLib roundTripDoc rfl).2.1
      [("key1", .str "value1"), ("key2", .str "value2")] rfl⟩

theorem decodeLoop_origin (lib : Lib) (data sd : SMap) (k : String) (v : Value)
    (h : mapGet (decodeLoop lib data sd).2 k = some v) :
    mapGet sd k = some v ∨
      ∃ s d, (k, Value.str s) ∈ data ∧ lib.base64Decode s = .ok d ∧ v = .str d := by
  induction data generalizing sd with
  | nil => exact Or.inl (by simpa [decodeLoop] using h)
  | cons e rest ih =>
    obtain ⟨key, value⟩ := e
    have lift : ∀ sd', mapGet (decodeLoop lib rest sd').2 k = some v →
        mapGet sd' k = some v ∨
          ∃ s d, (k, Value.str s) ∈ (key, value) :: rest ∧ lib.base64Decode s = .ok d ∧
            v = .str d := by
      intro sd' h'
      rcases ih sd' h' with h1 | ⟨s, d, hm, hd, hv⟩
      · exact Or.inl h1
      · exact Or.inr ⟨s, d, List.mem_cons_of_mem _ hm, hd, hv⟩
    cases value with
    | str s0 =>
      simp only [decodeLoop] at h
      cases hd : lib.base64Decode s0 with
      | error err =>
        rw [hd] at h
        exact Or.inl h
      | ok d =>
        rw [hd] at h
        simp only at h
        split at h
        · exact lift sd h
        · rcases lift _ h with h1 | h2
          · by_cases hk : k = key
            · subst hk
              rw [mapGet_mapPut_self] at h1
              exact Or.inr ⟨s0, d, List.mem_cons_self _ _, hd, (Option.some.inj h1).symm⟩
            · rw [mapGet_mapPut_ne _ _ _ _ hk] at h1
              exact Or.inl h1
          · exact Or.inr h2
    | null => exact Or.inl (by simpa [decodeLoop] using h)
    | bool b => exact Or.inl (by simpa [decodeLoop] using h)
    | int n => exact Or.inl (by simpa [decodeLoop] using h)
    | float b => exact Or.inl (by simpa [decodeLoop] using h)
    | seq xs => exact Or.inl (by simpa [decodeLoop] using h)
    | smap m => exact Or.inl (by simpa [decodeLoop] using h)
    | imap m => exact Or.inl (by simpa [decodeLoop] using h)

/-- The error of the step is the error of its loop. -/
theorem DecodeBase64Values_err_of_data (lib : Lib) (inputData data : SMap)
    (hdata : mapGet inputData "data" = some (.smap data)) :
    (DecodeBase64Values lib inputData).1 =
      (decodeLoop lib data ((asSMap (mapGet inputData "stringData")).getD [])).1 := by
  rw [DecodeBase64Values_of_data lib inputData data hdata]
  generalize decodeLoop lib data ((asSMap (mapGet inputData "stringData")).getD []) = r
  obtain ⟨err, sd'⟩ := r
  cases err <;> rfl

/-- The type assertion on `data` succeeds exactly on a string-keyed mapping. -/
theorem asSMap_eq_none_or (v : Option Value) :
    asSMap v = none ∨ ∃ m, v = some (.smap m) := by
  cases v with
  | none => exact Or.inl rfl
  | some w =>
    cases w with
    | smap m => exact Or.inr ⟨m, rfl⟩
    | _ => exact Or.inl rfl

theorem decodesOk_false_of_not_str (lib : Lib) (v : Value) (h : isStr v = false) :
    decodesOk lib v = false := by
  cases v <;> simp_all [isStr, decodesOk]

theorem decodesOk_false_of_error (lib : Lib) (s err : String)
    (h : lib.base64Decode s = .error err) : decodesOk lib (.str s) = false := by
  simp [decodesOk, h]

/-- C6 (errors). The step `DecodeBase64Values` returns an error if and only if `data` is a
string-keyed mapping with at least one entry whose value is not a string or is not valid
standard base64; and the message of a returned error names the key of such an entry. -/
theorem error_iff_offending_entry (lib : Lib) (inputData : SMap) :
    ((DecodeBase64Values lib inputData).1 ≠ none ↔
      ∃ data, mapGet inputData "data" = some (.smap data) ∧
        ∃ e ∈ data, decodesOk lib e.2 = false) ∧
    ∀ msg, (DecodeBase64Values lib inputData).1 = some msg →
      ∃ data e, mapGet inputData "data" = some (.smap data) ∧ e ∈ data ∧
        decodesOk lib e.2 = false ∧
        ((isStr e.2 = false ∧
            msg = "data field contains a non-string value for key " ++ e.1) ∨
          (∃ s err, e.2 = .str s ∧ lib.base64Decode s = .error err ∧
            msg = "failed to decode base64 value for key " ++ e.1 ++ ": " ++ err)) := by
  rcases asSMap_eq_none_or (mapGet inputData "data") with hnone | ⟨data, hdata⟩
  · have hno : ∀ data, mapGet inputData "data" ≠ some (.smap data) := by
      intro data hd
      rw [hd] at hnone
      simp [asSMap] at hnone
    rw [DecodeBase64Values_of_no_data lib inputData hnone]
    refine ⟨⟨fun h => absurd rfl h, ?_⟩, ?_⟩
    · rintro ⟨data, hd, _⟩
      exact absurd hd (hno data)
    · intro msg h
      simp at h
  · rw [DecodeBase64Values_err_of_data lib inputData data hdata]
    refine ⟨⟨?_, ?_⟩, ?_⟩
    · intro h
      refine ⟨data, hdata, ?_⟩
      by_contra hall
      apply h
      rw [decodeLoop_ok_iff]
      intro e he
      by_contra hbad
      exact hall ⟨e, he, by simpa using hbad⟩
    · rintro ⟨data', hd', e, he, hbad⟩ hok
      rw [hdata] at hd'
      cases hd'
      rw [decodeLoop_ok_iff] at hok
      rw [hok e he] at hbad
      exact absurd hbad (by decide)
    · intro msg h
      obtain ⟨e, he, hprop⟩ := decodeLoop_err_msg lib data _ msg h
      refine ⟨data, e, hdata, he, ?_, hprop⟩
      rcases hprop with ⟨hs, _⟩ | ⟨s, err, hes, hd, _⟩
      · exact decodesOk_false_of_not_str lib e.2 hs
      · rw [hes]
        exact decodesOk_false_of_error lib s err hd

/-- The theorem `error_iff_offending_entry` at the malformed-encoding example: the error is
returned and names the key `k1`. -/
theorem error_iff_offending_entry_witness :
    (DecodeBase64Values exampleLib malformedDoc).1
      = some "failed to decode base64 value for key k1: illegal base64 data at input byte 3" ∧
    ∃ data e, mapGet malformedDoc "data" = some (.smap data) ∧ e ∈ data ∧
      decodesOk exampleLib e.2 = false ∧
      ((isStr e.2 = false ∧
          "failed to decode base64 value for key k1: illegal base64 data at input byte 3"
            = "data field contains a non-string value for key " ++ e.1) ∨
        (∃ s err, e.2 = .str s ∧ exampleLib.base64Decode s = .error err ∧
          "failed to decode base64 value for key k1: illegal base64 data at input byte 3"
            = "failed to decode base64 value for key " ++ e.1 ++ ": " ++ err)) :=
  ⟨rfl, (error_iff_offending_entry exampleLib malformedDoc).2 _ rfl⟩

/-- C7 as stated fails: on the malformed-encoding example the step returns an error after it
has created `stringData`, and on a document whose `data` has a valid entry before the
malformed one it returns the error after it has committed the decoded entry. -/
theorem error_leaves_partial_commit :
    ((DecodeBase64Values exampleLib malformedDoc).1
        = some "failed to decode base64 value for key k1: illegal base64 data at input byte 3" ∧
      mapGet malformedDoc "stringData" = none ∧
      mapGet (DecodeBase64Values exampleLib malformedDoc).2 "stringData" = some (.smap [])) ∧
    ((DecodeBase64Values exampleLib halfValidDoc).1
        = some "failed to decode base64 value for key k1: illegal base64 data at input byte 3" ∧
      mapGet halfValidDoc "stringData" = none ∧
      mapGet (DecodeBase64Values exampleLib halfValidDoc).2 "stringData"
        = some (.smap [("k0", .str "value1")])) :=
  ⟨⟨rfl, rfl, rfl⟩, ⟨rfl, rfl, rfl⟩⟩

/-- One turn of the loop on an entry that decodes. -/
theorem decodeLoop_cons_ok (lib : Lib) (key s d : String) (rest sd : SMap)
    (hd : lib.base64Decode s = .ok d) :
    decodeLoop lib ((key, .str s) :: rest) sd =
      decodeLoop lib rest
        (if (mapGet sd key).isSome then sd else mapPut sd key (.str d)) := by
  simp only [decodeLoop, hd]
  split <;> rfl

/-- When the loop ends with an error, `data` splits into the entries visited before the
failing one, all of which decode, the failing entry, which the message names, and the entries
never visited; and `stringData` is left as the loop over the visited entries alone leaves
it. -/
theorem decodeLoop_error_split (lib : Lib) (data sd : SMap) (msg : String)
    (h : (decodeLoop lib data sd).1 = some msg) :
    ∃ pre e post, data = pre ++ e :: post ∧
      (∀ x ∈ pre, decodesOk lib x.2 = true) ∧ decodesOk lib e.2 = false ∧
      ((isStr e.2 = false ∧ msg = "data field contains a non-string value for key " ++ e.1) ∨
        (∃ s err, e.2 = .str s ∧ lib.base64Decode s = .error err ∧
          msg = "failed to decode base64 value for key " ++ e.1 ++ ": " ++ err)) ∧
      (decodeLoop lib pre sd).1 = none ∧
      (decodeLoop lib data sd).2 = (decodeLoop lib pre sd).2 := by
  induction data generalizing sd with
  | nil => simp [decodeLoop] at h
  | cons e rest ih =>
    obtain ⟨key, value⟩ := e
    have here : isStr value = false →
        decodeLoop lib ((key, value) :: rest) sd
          = (some ("data field contains a non-string value for key " ++ key), sd) →
        ∃ pre e post, (key, value) :: rest = pre ++ e :: post ∧
          (∀ x ∈ pre, decodesOk lib x.2 = true) ∧ decodesOk lib e.2 = false ∧
          ((isStr e.2 = false ∧
              msg = "data field contains a non-string value for key " ++ e.1) ∨
            (∃ s err, e.2 = .str s ∧ lib.base64Decode s = .error err ∧
              msg = "failed to decode base64 value for key " ++ e.1 ++ ": " ++ err)) ∧
          (decodeLoop lib pre sd).1 = none ∧
          (decodeLoop lib ((key, value) :: rest) sd).2 = (decodeLoop lib pre sd).2 := by
      intro hs heq
      rw [heq] at h ⊢
      simp only [Option.some.injEq] at h
      exact ⟨[], (key, value), rest, rfl, by simp,
        decodesOk_false_of_not_str lib value hs, Or.inl ⟨hs, h.symm⟩, rfl, rfl⟩
    cases value with
    | str s =>
      cases hd : lib.base64Decode s with
      | error err =>
        have heq : decodeLoop lib ((key, .str s) :: rest) sd
            = (some ("failed to decode base64 value for key " ++ key ++ ": " ++ err), sd) := by
          simp only [decodeLoop, hd]
        rw [heq] at h ⊢
        simp only [Option.some.injEq] at h
        exact ⟨[], (key, .str s), rest, rfl, by simp, decodesOk_false_of_error lib s err hd,
          Or.inr ⟨s, err, rfl, hd, h.symm⟩, rfl, rfl⟩
      | ok d =>
        rw [decodeLoop_cons_ok lib key s d rest sd hd] at h ⊢
        obtain ⟨pre, e, post, hsplit, hpre, he, hmsg, hok, hsd⟩ := ih _ h
        refine ⟨(key, .str s) :: pre, e, post, by rw [hsplit]; rfl, ?_, he, hmsg, ?_, ?_⟩
        · intro x hx
          rcases List.mem_cons.1 hx with rfl | hx'
          · simp [decodesOk, hd]
          · exact hpre x hx'
        · rw [decodeLoop_cons_ok lib key s d pre sd hd]
          exact hok
        · rw [decodeLoop_cons_ok lib key s d pre sd hd]
          exact hsd
    | null => exact here rfl (by simp [decodeLoop])
    | bool b => exact here rfl (by simp [decodeLoop])
    | int n => exact here rfl (by simp [decodeLoop])
    | float b => exact here rfl (by simp [decodeLoop])
    | seq xs => exact here rfl (by simp [decodeLoop])
    | smap m => exact here rfl (by simp [decodeLoop])
    | imap m => exact here rfl (by simp [decodeLoop])

/-- C7 (state after an error, amended). When `DecodeBase64Values` returns an error, `data`
is still present and unchanged and so is every other top-level key except `stringData`. The
entries of `data` split into those visited before the failing one, which all decode, the
failing entry, which the message names, and those never visited. `stringData` is a mapping
that keeps every entry it held before the call, holds the decoded value of every visited
entry whose key it did not hold before, and holds nothing else: no entry from the failing
entry on is committed. -/
theorem error_frame (lib : Lib) (inputData : SMap) (msg : String)
    (herr : (DecodeBase64Values lib inputData).1 = some msg) :
    (∃ data pre e post, mapGet inputData "data" = some (.smap data) ∧
      data = pre ++ e :: post ∧
      (∀ x ∈ pre, decodesOk lib x.2 = true) ∧ decodesOk lib e.2 = false ∧
      ((isStr e.2 = false ∧ msg = "data field contains a non-string value for key " ++ e.1) ∨
        (∃ s err, e.2 = .str s ∧ lib.base64Decode s = .error err ∧
          msg = "failed to decode base64 value for key " ++ e.1 ++ ": " ++ err)) ∧
      mapGet (DecodeBase64Values lib inputData).2 "data" = some (.smap data) ∧
      ∃ stringData', mapGet (DecodeBase64Values lib inputData).2 "stringData"
          = some (.smap stringData') ∧
        (∀ sd, mapGet inputData "stringData" = some (.smap sd) →
          ∀ k v, mapGet sd k = some v → mapGet stringData' k = some v) ∧
        (∀ k s, mapGet pre k = some (.str s) →
          (∀ sd, mapGet inputData "stringData" = some (.smap sd) → mapGet sd k = none) →
          ∃ d, lib.base64Decode s = .ok d ∧ mapGet stringData' k = some (.str d)) ∧
        (∀ k v, mapGet stringData' k = some v →
          (∃ sd, mapGet inputData "stringData" = some (.smap sd) ∧ mapGet sd k = some v) ∨
          (∃ s d, (k, Value.str s) ∈ pre ∧ lib.base64Decode s = .ok d ∧ v = .str d))) ∧
    ∀ k, k ≠ "stringData" →
      mapGet (DecodeBase64Values lib inputData).2 k = mapGet inputData k := by
  rcases asSMap_eq_none_or (mapGet inputData "data") with hnone | ⟨data, hdata⟩
  · rw [DecodeBase64Values_of_no_data lib inputData hnone] at herr
    simp at herr
  · have herr' := herr
    rw [DecodeBase64Values_err_of_data lib inputData data hdata] at herr'
    obtain ⟨pre, e, post, hsplit, hpre, he, hmsg, hok, hsd⟩ :=
      decodeLoop_error_split lib data _ msg herr'
    have hkeep := decodeLoop_keeps lib pre ((asSMap (mapGet inputData "stringData")).getD [])
    have horig := decodeLoop_origin lib pre ((asSMap (mapGet inputData "stringData")).getD [])
    have hcommit := fun k s => decodeLoop_decoded lib pre
      ((asSMap (mapGet inputData "stringData")).getD []) k s hok
    have hfresh : ∀ k,
        (∀ sd, mapGet inputData "stringData" = some (.smap sd) → mapGet sd k = none) →
        mapGet ((asSMap (mapGet inputData "stringData")).getD []) k = none := by
      intro k hk
      cases hsd0 : mapGet inputData "stringData" with
      | none => simp [asSMap, mapGet]
      | some w =>
        cases w with
        | smap sd => simpa [asSMap] using hk sd hsd0
        | _ => simp [asSMap, mapGet]
    rw [← hsd] at hkeep horig hcommit
    rw [DecodeBase64Values_of_data lib inputData data hdata] at herr ⊢
    generalize decodeLoop lib data ((asSMap (mapGet inputData "stringData")).getD []) = r
      at herr hkeep horig hcommit
    obtain ⟨err, sd'⟩ := r
    cases err with
    | none => simp at herr
    | some e0 =>
      simp only
      refine ⟨⟨data, pre, e, post, hdata, hsplit, hpre, he, hmsg, ?_, sd',
        mapGet_mapPut_self _ _ _, ?_, ?_, ?_⟩, ?_⟩
      · rw [mapGet_mapPut_ne _ _ _ _ (by decide)]
        exact hdata
      · intro sd hsd0 k v hk
        apply hkeep
        simpa [hsd0, asSMap] using hk
      · intro k s hk hnew
        exact hcommit k s hk (hfresh k hnew)
      · intro k v hk
        rcases horig k v hk with h1 | h2
        · left
          cases hsd0 : mapGet inputData "stringData" with
          | none => simp [hsd0, asSMap, mapGet] at h1
          | some w =>
            cases w with
            | smap sd => exact ⟨sd, rfl, by simpa [hsd0, asSMap] using h1⟩
            | _ => simp [hsd0, asSMap, mapGet] at h1
        · exact Or.inr h2
      · intro k hk
        exact mapGet_mapPut_ne _ _ _ _ hk

/-- The theorem `error_frame` at the document whose `data` holds the valid entry `k0`, the
malformed entry `k1` and the valid entry `k2`, visited in that order: `k0` is committed, `k2`
is not. -/
theorem error_frame_witness :
    (DecodeBase64Values exampleLib threeEntryDoc).1
      = some "failed to decode base64 value for key k1: illegal base64 data at input byte 3" ∧
    mapGet (DecodeBase64Values exampleLib threeEntryDoc).2 "stringData"
      = some (.smap [("k0", .str "value1")]) ∧
    mapGet (DecodeBase64Values exampleLib threeEntryDoc).2 "data"
      = mapGet threeEntryDoc "data" ∧
    ∀ k, k ≠ "stringData" →
      mapGet (DecodeBase64Values exampleLib threeEntryDoc).2 k = mapGet threeEntryDoc k :=
  ⟨rfl, rfl, rfl, (error_frame exampleLib threeEntryDoc _ rfl).2⟩

/-! ## Format detection: `ParseInput`, `AssertFormat`, `OutputResult` -/

theorem AssertFormat_of_detected (detectedFormat bytes : String) (h : detectedFormat ≠ "") :
    AssertFormat detectedFormat bytes = detectedFormat := by
  simp [AssertFormat, h]

theorem convertMap_imap (lib : Lib) (yamlData : IMap) :
    convertMap lib (.imap yamlData) = .smap (convertMapEntries lib yamlData []) := by
  simp [convertMap]

/-- The result of `ParseInput`, by cases on the two parsers. -/
theorem ParseInput_eq (lib : Lib) (detectedFormat input : String) :
    ParseInput lib detectedFormat input =
      match lib.jsonUnmarshal input with
      | some jsonData => (.ok jsonData, "json")
      | none =>
        match lib.yamlUnmarshal input with
        | some yamlData => (.ok (convertMapEntries lib yamlData []), "yaml")
        | none =>
          (.error
            "failed to parse input as JSON or YAML. Use --output yaml|json to decode data.",
            detectedFormat) := by
  unfold ParseInput
  cases lib.jsonUnmarshal input with
  | some jsonData => rfl
  | none =>
    cases lib.yamlUnmarshal input with
    | some yamlData => simp only [convertMap_imap]
    | none => rfl

/-- After a successful decode-merge step, `OutputResult` writes what the serialiser of the
format returned by `AssertFormat` produces. -/
theorem OutputResult_of_decoded (lib : Lib) (detectedFormat bytes : String)
    (inputData decoded : SMap) (h : DecodeBase64Values lib inputData = (none, decoded)) :
    (AssertFormat detectedFormat bytes = "json" →
      OutputResult lib detectedFormat bytes inputData =
        match lib.jsonMarshalIndent decoded with
        | .error err => ⟨some ("error encoding JSON: " ++ err), "", decoded⟩
        | .ok output => ⟨none, output, decoded⟩) ∧
    (AssertFormat detectedFormat bytes = "yaml" →
      OutputResult lib detectedFormat bytes inputData =
        match lib.yamlMarshal decoded with
        | .error err => ⟨some ("error encoding YAML: " ++ err), "", decoded⟩
        | .ok output => ⟨none, output, decoded⟩) := by
  constructor
  · intro hf
    simp only [OutputResult, h, hf, if_true]
  · intro hf
    have hne : ¬ ("yaml" = "json") := by decide
    simp only [OutputResult, h, hf, hne, if_false, if_true]

/-- C8 (format preservation). When `ParseInput` succeeds, the format it records is that of
the parser that accepted the input, JSON first: "json" whenever the JSON parser accepts (the
result then does not depend on the YAML parser), "yaml" when the JSON parser rejects and the
YAML parser accepts. `AssertFormat` then returns the recorded format whatever bytes it is
given, and `OutputResult` writes the output of the serialiser of that format. -/
theorem format_preservation (lib : Lib) (detectedFormat input : String) (doc : SMap)
    (detectedFormat' : String)
    (h : ParseInput lib detectedFormat input = (.ok doc, detectedFormat')) :
    (lib.jsonUnmarshal input = some doc ∧ detectedFormat' = "json" ∧
      (∀ lib' df, lib'.jsonUnmarshal input = some doc →
        ParseInput lib' df input = (.ok doc, "json")) ∧
      (∀ bytes, AssertFormat detectedFormat' bytes = "json") ∧
      ∀ bytes inputData decoded, DecodeBase64Values lib inputData = (none, decoded) →
        OutputResult lib detectedFormat' bytes inputData =
          match lib.jsonMarshalIndent decoded with
          | .error err => ⟨some ("error encoding JSON: " ++ err), "", decoded⟩
          | .ok output => ⟨none, output, decoded⟩) ∨
    (lib.jsonUnmarshal input = none ∧
      (∃ yamlData, lib.yamlUnmarshal input = some yamlData ∧
        convertMap lib (.imap yamlData) = .smap doc) ∧
      detectedFormat' = "yaml" ∧
      (∀ bytes, AssertFormat detectedFormat' bytes = "yaml") ∧
      ∀ bytes inputData decoded, DecodeBase64Values lib inputData = (none, decoded) →
        OutputResult lib detectedFormat' bytes inputData =
          match lib.yamlMarshal decoded with
          | .error err => ⟨some ("error encoding YAML: " ++ err), "", decoded⟩
          | .ok output => ⟨none, output, decoded⟩) := by
  rw [ParseInput_eq] at h
  cases hj : lib.jsonUnmarshal input with
  | some jsonData =>
    rw [hj] at h
    simp only [Prod.mk.injEq, Except.ok.injEq] at h
    obtain ⟨hdoc, hfmt⟩ := h
    subst hdoc
    subst hfmt
    refine Or.inl ⟨rfl, rfl, ?_, ?_, ?_⟩
    · intro lib' df hj'
      rw [ParseInput_eq, hj']
    · intro bytes
      exact AssertFormat_of_detected "json" bytes (by decide)
    · intro bytes inputData decoded hdec
      exact (OutputResult_of_decoded lib "json" bytes inputData decoded hdec).1
        (AssertFormat_of_detected "json" bytes (by decide))
  | none =>
    rw [hj] at h
    cases hy : lib.yamlUnmarshal input with
    | none =>
      rw [hy] at h
      simp at h
    | some yamlData =>
      rw [hy] at h
      simp only [Prod.mk.injEq, Except.ok.injEq] at h
      obtain ⟨hdoc, hfmt⟩ := h
      subst hdoc
      subst hfmt
      refine Or.inr ⟨rfl, ⟨yamlData, rfl, convertMap_imap lib yamlData⟩, rfl, ?_, ?_⟩
      · intro bytes
        exact AssertFormat_of_detected "yaml" bytes (by decide)
      · intro bytes inputData decoded hdec
        exact (OutputResult_of_decoded lib "yaml" bytes inputData decoded hdec).2
          (AssertFormat_of_detected "yaml" bytes (by decide))

/-- The theorem `format_preservation` at the input of `TestRoundTripYaml`, which the JSON
parser rejects and the YAML parser accepts. -/
theorem format_preservation_witness :
    ParseInput exampleLib "" roundTripYaml = (.ok roundTripDoc, "yaml") ∧
    ∀ bytes, AssertFormat "yaml" bytes = "yaml" :=
  ⟨rfl, fun bytes =>
    (format_preservation exampleLib "" roundTripYaml roundTripDoc "yaml" rfl).elim
      (fun hj => absurd hj.2.1 (by decide)) (fun hy => hy.2.2.2.1 bytes)⟩

/-! ## The filter mode of `Execute` -/

/-- Assigning at a string key that the map does not hold appends the entry. -/
theorem imapPut_of_absent (m : IMap) (k : String) (v : Value)
    (h : ∀ e ∈ m, keyIs e.1 k = false) : imapPut m k v = m ++ [(.str k, v)] := by
  induction m with
  | nil => rfl
  | cons e rest ih =>
    obtain ⟨k0, v0⟩ := e
    have h0 : keyIs k0 k = false := h (k0, v0) (List.mem_cons_self _ _)
    have hrest : ∀ e ∈ rest, keyIs e.1 k = false := fun e he => h e (List.mem_cons_of_mem _ he)
    simp [imapPut, h0, ih hrest]

theorem mapPut_of_absent {β : Type} (m : List (String × β)) (k : String) (v : β)
    (h : k ∉ mapKeys m) : mapPut m k v = m ++ [(k, v)] := by
  induction m with
  | nil => rfl
  | cons e rest ih =>
    obtain ⟨k0, v0⟩ := e
    simp only [mapKeys, List.map_cons, List.mem_cons, not_or] at h
    have h0 : ¬ k0 = k := fun hk => h.1 hk.symm
    simp [mapPut, h0, ih h.2]

theorem keyIs_str (a b : String) : keyIs (.str a) b = decide (a = b) := by
  rfl

theorem foldl_imapPut (doc : SMap) (acc : IMap) (hn : KeysNodup doc)
    (hd : ∀ e ∈ acc, ∀ k ∈ mapKeys doc, keyIs e.1 k = false) :
    doc.foldl (fun interfaceInputData e => imapPut interfaceInputData e.1 e.2) acc
      = acc ++ doc.map (fun e => (Value.str e.1, e.2)) := by
  induction doc generalizing acc with
  | nil => simp
  | cons e rest ih =>
    obtain ⟨k, v⟩ := e
    simp only [KeysNodup, mapKeys, List.map_cons, List.nodup_cons] at hn
    have habs : ∀ e ∈ acc, keyIs e.1 k = false :=
      fun e he => hd e he k (by simp [mapKeys])
    simp only [List.foldl_cons, imapPut_of_absent acc k v habs]
    rw [ih (acc ++ [(Value.str k, v)]) hn.2]
    · simp
    · intro e he k' hk'
      rcases List.mem_append.1 he with h1 | h1
      · exact hd e h1 k' (by simp only [mapKeys, List.map_cons]; exact List.mem_cons_of_mem _ hk')
      · simp only [List.mem_singleton] at h1
        subst h1
        rw [keyIs_str]
        simp only [decide_eq_false_iff_not]
        rintro rfl
        exact hn.1 hk'

theorem toInterfaceMap_eq (doc : SMap) (hn : KeysNodup doc) :
    toInterfaceMap doc = doc.map (fun e => (Value.str e.1, e.2)) := by
  unfold toInterfaceMap
  rw [foldl_imapPut doc [] hn (by simp)]
  simp

theorem foldl_mapPut (doc acc : SMap) (hn : KeysNodup doc)
    (hd : ∀ k ∈ mapKeys doc, k ∉ mapKeys acc) :
    (doc.map (fun e => (Value.str e.1, e.2))).foldl
      (fun stringInputData e =>
        match e.1 with
        | .str strKey => mapPut stringInputData strKey e.2
        | _ => stringInputData) acc
      = acc ++ doc := by
  induction doc generalizing acc with
  | nil => simp
  | cons e rest ih =>
    obtain ⟨k, v⟩ := e
    simp only [KeysNodup, mapKeys, List.map_cons, List.nodup_cons] at hn
    have habs : k ∉ mapKeys acc := hd k (by simp [mapKeys])
    simp only [List.map_cons, List.foldl_cons, mapPut_of_absent acc k v habs]
    rw [ih (acc ++ [(k, v)]) hn.2]
    · simp
    · intro k' hk'
      simp only [mapKeys, List.map_append, List.map_cons, List.map_nil, List.mem_append,
        List.mem_singleton, not_or]
      refine ⟨hd k' (by simp only [mapKeys, List.map_cons]; exact List.mem_cons_of_mem _ hk'), ?_⟩
      rintro rfl
      exact hn.1 hk'

/-- Copying a document into a `map[interface{}]interface{}` and back gives the document. -/
theorem toStringMap_toInterfaceMap (doc : SMap) (hn : KeysNodup doc) :
    toStringMap (toInterfaceMap doc) = doc := by
  rw [toInterfaceMap_eq doc hn]
  unfold toStringMap
  rw [foldl_mapPut doc [] hn (by simp [mapKeys])]
  simp

theorem imapGet_map_str (doc : SMap) (k : String) :
    imapGet (doc.map (fun e => (Value.str e.1, e.2))) k = mapGet doc k := by
  induction doc with
  | nil => rfl
  | cons e rest ih =>
    obtain ⟨k0, v0⟩ := e
    by_cases hk : k0 = k
    · simp [imapGet, mapGet, keyIs, hk]
    · simp [imapGet, mapGet, keyIs, hk, ih]

theorem imapGet_toInterfaceMap (doc : SMap) (hn : KeysNodup doc) (k : String) :
    imapGet (toInterfaceMap doc) k = mapGet doc k := by
  rw [toInterfaceMap_eq doc hn, imapGet_map_str]

/-- The function `ProcessResource` does nothing unless `data` is an interface-keyed map. -/
theorem ProcessResource_of_no_imap (lib : Lib) (resource : IMap)
    (h : asIMap (imapGet resource "data") = none) :
    ProcessResource lib resource = (none, resource) := by
  simp [ProcessResource, h]

/-- The filter mode of `Execute` on an input that `ParseInput` accepts. -/
theorem Execute_filter_of_parsed (lib : Lib) (executor : Executor) (osArgs : List String)
    (input : String) (doc : SMap) (format : String)
    (hmode : ¬ (osArgs.length > 1 ∧ osArgs.get? 1 = some "get"))
    (hparse : ParseInput lib "" input = (.ok doc, format)) :
    Execute lib executor osArgs (.ok input) =
      match ProcessResource lib (toInterfaceMap doc) with
      | (some err, _) => ⟨"", "Error processing resource: " ++ err ++ "\n", 1⟩
      | (none, interfaceInputData) =>
        match (OutputResult lib format input (toStringMap interfaceInputData)).err with
        | some err =>
          ⟨(OutputResult lib format input (toStringMap interfaceInputData)).stdout,
            "Error outputting result: " ++ err ++ "\n", 1⟩
        | none => ⟨(OutputResult lib format input (toStringMap interfaceInputData)).stdout, "", 0⟩ := by
  unfold Execute
  rw [if_neg hmode]
  simp only [hparse]

/-- A successful `ParseInput` records one of the two formats. -/
theorem ParseInput_ok_format (lib : Lib) (detectedFormat input : String) (doc : SMap)
    (format : String) (h : ParseInput lib detectedFormat input = (.ok doc, format)) :
    format = "json" ∨ format = "yaml" := by
  rw [ParseInput_eq] at h
  cases hj : lib.jsonUnmarshal input with
  | some jsonData =>
    rw [hj] at h
    simp only [Prod.mk.injEq] at h
    exact Or.inl h.2.symm
  | none =>
    rw [hj] at h
    cases hy : lib.yamlUnmarshal input with
    | none =>
      rw [hy] at h
      simp at h
    | some yamlData =>
      rw [hy] at h
      simp only [Prod.mk.injEq] at h
      exact Or.inr h.2.symm

/-- C9 (round trip). In filter mode, for a parsed document without `data` whose `stringData`
is a mapping, `ProcessResource` and the copy back to a string-keyed map leave the document
unchanged, so does the decode-merge step of `OutputResult`, and the program writes the
serialisation of exactly that document in the detected format, JSON or YAML, with exit
status 0 (or reports the error of the serialiser). -/
theorem round_trip (lib : Lib) (executor : Executor) (osArgs : List String) (input : String)
    (doc stringData : SMap) (format : String)
    (hmode : ¬ (osArgs.length > 1 ∧ osArgs.get? 1 = some "get"))
    (hparse : ParseInput lib "" input = (.ok doc, format))
    (hn : KeysNodup doc)
    (hdata : mapGet doc "data" = none)
    (hsd : mapGet doc "stringData" = some (.smap stringData)) :
    ProcessResource lib (toInterfaceMap doc) = (none, toInterfaceMap doc) ∧
    toStringMap (toInterfaceMap doc) = doc ∧
    DecodeBase64Values lib doc = (none, doc) ∧
    ((format = "json" ∧
        Execute lib executor osArgs (.ok input) =
          match lib.jsonMarshalIndent doc with
          | .ok output => ⟨output, "", 0⟩
          | .error err =>
            ⟨"", "Error outputting result: error encoding JSON: " ++ err ++ "\n", 1⟩) ∨
      (format = "yaml" ∧
        Execute lib executor osArgs (.ok input) =
          match lib.yamlMarshal doc with
          | .ok output => ⟨output, "", 0⟩
          | .error err =>
            ⟨"", "Error outputting result: error encoding YAML: " ++ err ++ "\n", 1⟩)) := by
  have hproc : ProcessResource lib (toInterfaceMap doc) = (none, toInterfaceMap doc) := by
    apply ProcessResource_of_no_imap
    rw [imapGet_toInterfaceMap doc hn, hdata]
    rfl
  have hback := toStringMap_toInterfaceMap doc hn
  have hdec : DecodeBase64Values lib doc = (none, doc) := by
    rw [DecodeBase64Values_of_no_data lib doc (by rw [hdata]; rfl)]
    simp only [hsd, asSMap]
  refine ⟨hproc, hback, hdec, ?_⟩
  have hexec := Execute_filter_of_parsed lib executor osArgs input doc format hmode hparse
  rw [hproc] at hexec
  simp only [hback] at hexec
  rcases ParseInput_ok_format lib "" input doc format hparse with hj | hy
  · subst hj
    refine Or.inl ⟨rfl, ?_⟩
    rw [hexec, (OutputResult_of_decoded lib "json" input doc doc hdec).1
      (AssertFormat_of_detected "json" input (by decide))]
    cases lib.jsonMarshalIndent doc with
    | ok output => rfl
    | error err => rfl
  · subst hy
    refine Or.inr ⟨rfl, ?_⟩
    rw [hexec, (OutputResult_of_decoded lib "yaml" input doc doc hdec).2
      (AssertFormat_of_detected "yaml" input (by decide))]
    cases lib.yamlMarshal doc with
    | ok output => rfl
    | error err => rfl

/-- The theorem `round_trip` at the inputs of `TestRoundTripJson` and `TestRoundTripYaml`:
both are parsed to the same document, which the pipeline leaves unchanged, and the output is
its serialisation in the format of the input. -/
theorem round_trip_witness :
    (ParseInput exampleLib "" roundTripJson = (.ok roundTripDoc, "json") ∧
      ParseInput exampleLib "" roundTripYaml = (.ok roundTripDoc, "yaml") ∧
      KeysNodup roundTripDoc) ∧
    (DecodeBase64Values exampleLib roundTripDoc = (none, roundTripDoc) ∧
      Execute exampleLib (fun _ _ => ("", none)) ["kubectl-decode"] (.ok roundTripJson)
        = ⟨roundTripJson, "", 0⟩) ∧
    (toStringMap (toInterfaceMap roundTripDoc) = roundTripDoc ∧
      Execute exampleLib (fun _ _ => ("", none)) ["kubectl-decode"] (.ok roundTripYaml)
        = ⟨renderValue false (.smap roundTripDoc) ++ "\n", "", 0⟩) :=
  ⟨⟨rfl, rfl, by decide⟩,
    ⟨(round_trip exampleLib (fun _ _ => ("", none)) ["kubectl-decode"] roundTripJson roundTripDoc
      [("key1", .str "value1"), ("key2", .str "value2")] "json" (by decide) rfl (by decide) rfl
      rfl).2.2.1, rfl⟩,
    ⟨(round_trip exampleLib (fun _ _ => ("", none)) ["kubectl-decode"] roundTripYaml roundTripDoc
      [("key1", .str "value1"), ("key2", .str "value2")] "yaml" (by decide) rfl (by decide) rfl
      rfl).2.1, rfl⟩⟩

/-- C10 (unparsable input). In filter mode, when `ParseInput` rejects the bytes read from
standard input, the program writes exactly those bytes to standard output and nothing to
standard error and exits with status 1; the outcome involves no decoder and no serialiser. -/
theorem unparsable_passthrough (lib : Lib) (executor : Executor) (osArgs : List String)
    (input : String)
    (hmode : ¬ (osArgs.length > 1 ∧ osArgs.get? 1 = some "get"))
    (hreject : ∃ err, (ParseInput lib "" input).1 = .error err) :
    Execute lib executor osArgs (.ok input) = ⟨input, "", 1⟩ ∧
    lib.jsonUnmarshal input = none ∧ lib.yamlUnmarshal input = none := by
  obtain ⟨err, herr⟩ := hreject
  rw [ParseInput_eq] at herr
  cases hj : lib.jsonUnmarshal input with
  | some jsonData =>
    rw [hj] at herr
    simp at herr
  | none =>
    rw [hj] at herr
    cases hy : lib.yamlUnmarshal input with
    | some yamlData =>
      rw [hy] at herr
      simp at herr
    | none =>
      refine ⟨?_, rfl, rfl⟩
      unfold Execute
      rw [if_neg hmode]
      simp only [ParseInput_eq, hj, hy]

/-- The theorem `unparsable_passthrough` at the input of `TestInvalidJson`. -/
theorem unparsable_passthrough_witness :
    (∃ err, (ParseInput exampleLib "" invalidJson).1 = .error err) ∧
    Execute exampleLib (fun _ _ => ("", none)) ["kubectl-decode"] (.ok invalidJson)
      = ⟨invalidJson, "", 1⟩ :=
  ⟨⟨_, rfl⟩,
    (unparsable_passthrough exampleLib (fun _ _ => ("", none)) ["kubectl-decode"] invalidJson
      (by decide) ⟨_, rfl⟩).1⟩

/-! ## The `get` mode: `HandleGetCommand` on a list -/

/-- C4 fails on the code. For the output `listJson` of `kubectl get`, a `List` of two
secrets, `ParseInput` returns string-keyed items, the per-item branch of `HandleGetCommand`
finds no `map[interface{}]interface{}` among them and changes nothing, and the emitted
document is the parsed one with an empty top-level `stringData`: item 0 keeps its encoded
`data`, and the malformed payload of item 1 raises no error. -/
theorem list_items_left_encoded :
    ParseInput exampleLib "" listJson = (.ok listDoc, "json") ∧
    processResources exampleLib (toInterfaceMap listDoc) = (none, toInterfaceMap listDoc) ∧
    HandleGetCommand exampleLib "" ["secrets", "-o", "json"] (fun _ _ => (listJson, none)) =
      ⟨none, renderValue true (.smap (listDoc ++ [("stringData", .smap [])])),
        [("kubectl", ["get", "secrets", "-o", "json"])]⟩ ∧
    mapGet (OutputResult exampleLib "json" listJson listDoc).inputData "items"
      = mapGet listDoc "items" :=
  ⟨rfl, rfl, rfl, rfl⟩

/-! ## The fallback detection of `AssertFormat` -/

theorem dropWhile_append_singleton (p : Char → Bool) (xs : List Char) (c : Char)
    (hc : p c = false) : (xs ++ [c]).dropWhile p = xs.dropWhile p ++ [c] := by
  induction xs with
  | nil => simp [List.dropWhile, hc]
  | cons x rest ih =>
    cases hx : p x with
    | true => simpa [List.dropWhile, hx] using ih
    | false => simp [List.dropWhile, hx]

theorem dropWhile_prefix (p : Char → Bool) (pre post : List Char) (c : Char)
    (hpre : ∀ x ∈ pre, p x = true) (hc : p c = false) :
    (pre ++ c :: post).dropWhile p = c :: post := by
  induction pre with
  | nil => simp [List.dropWhile, hc]
  | cons x rest ih =>
    have hx : p x = true := hpre x (List.mem_cons_self _ _)
    have hrest : ∀ y ∈ rest, p y = true := fun y hy => hpre y (List.mem_cons_of_mem _ hy)
    simpa [List.dropWhile, hx] using ih hrest

theorem dropWhile_all (p : Char → Bool) (l : List Char) (h : ∀ x ∈ l, p x = true) :
    l.dropWhile p = [] := by
  induction l with
  | nil => rfl
  | cons x rest ih =>
    have hx : p x = true := h x (List.mem_cons_self _ _)
    have hrest : ∀ y ∈ rest, p y = true := fun y hy => h y (List.mem_cons_of_mem _ hy)
    simpa [List.dropWhile, hx] using ih hrest

/-- The first character of the trimmed text is the first character that is not white space. -/
theorem trimSpace_of_prefix (input : String) (pre post : List Char) (c : Char)
    (hin : input.data = pre ++ c :: post) (hpre : ∀ x ∈ pre, isSpace x = true)
    (hc : isSpace c = false) :
    (trimSpace input).data = c :: ((post.reverse.dropWhile isSpace).reverse) := by
  simp only [trimSpace, hin, dropWhile_prefix isSpace pre post c hpre hc, List.reverse_cons,
    dropWhile_append_singleton isSpace post.reverse c hc, List.reverse_append,
    List.reverse_singleton, List.singleton_append, List.reverse_nil, List.nil_append]

theorem trimSpace_of_blank (input : String) (h : ∀ x ∈ input.data, isSpace x = true) :
    (trimSpace input).data = [] := by
  simp only [trimSpace, dropWhile_all isSpace input.data h, List.reverse_nil, List.dropWhile_nil]

/-- C11 (fallback detection). With no recorded format, `AssertFormat` returns "json" when the
first character of the input that is not white space is an opening brace or bracket, "yaml"
when it is any other character, and the empty tag when the input is empty or all white
space; with a recorded format it returns that format for every input. -/
theorem assertFormat_fallback (input : String) :
    (∀ pre c post, input.data = pre ++ c :: post → (∀ x ∈ pre, isSpace x = true) →
      isSpace c = false →
      (c = '{' ∨ c = '[' → AssertFormat "" input = "json") ∧
      (¬ (c = '{' ∨ c = '[') → AssertFormat "" input = "yaml")) ∧
    ((∀ x ∈ input.data, isSpace x = true) → AssertFormat "" input = "") ∧
    ∀ detectedFormat, detectedFormat ≠ "" →
      AssertFormat detectedFormat input = detectedFormat := by
  refine ⟨?_, ?_, ?_⟩
  · intro pre c post hin hpre hc
    have ht := trimSpace_of_prefix input pre post c hin hpre hc
    constructor
    · intro hb
      simp [AssertFormat, ht, hb]
    · intro hb
      simp [AssertFormat, ht, hb]
  · intro hblank
    simp [AssertFormat, trimSpace_of_blank input hblank]
  · intro detectedFormat hne
    simp [AssertFormat, hne]

/-- The theorem `assertFormat_fallback` at a JSON document that follows two blanks and a line
break. -/
theorem assertFormat_fallback_witness :
    AssertFormat "" "  \n\x7b\"kind\":\"Secret\"\x7d" = "json" ∧
    AssertFormat "" "\tkind: Secret\n" = "yaml" ∧
    AssertFormat "" " \n\t " = "" ∧
    AssertFormat "yaml" "  \n\x7b\"kind\":\"Secret\"\x7d" = "yaml" :=
  ⟨((assertFormat_fallback "  \n\x7b\"kind\":\"Secret\"\x7d").1 [' ', ' ', '\n'] '{'
      "\"kind\":\"Secret\"\x7d".data rfl (by decide) (by decide)).1 (Or.inl rfl),
    ((assertFormat_fallback "\tkind: Secret\n").1 ['\t'] 'k' "ind: Secret\n".data rfl
      (by decide) (by decide)).2 (by decide),
    (assertFormat_fallback " \n\t ").2.1 (by decide),
    (assertFormat_fallback "  \n\x7b\"kind\":\"Secret\"\x7d").2.2 "yaml" (by decide)⟩

/-! ## The function `ProcessResource` -/

theorem imapGet_imapPut_self (m : IMap) (k : String) (v : Value) :
    imapGet (imapPut m k v) k = some v := by
  induction m with
  | nil => simp [imapPut, imapGet, keyIs]
  | cons e rest ih =>
    obtain ⟨k0, v0⟩ := e
    cases h : keyIs k0 k with
    | true =>
      simp only [imapPut, h, if_true]
      simp [imapGet, keyIs]
    | false =>
      simp only [imapPut, h, Bool.false_eq_true, if_false, imapGet]
      exact ih

/-- When `data` is an interface-keyed map and the decoder succeeds, `ProcessResource` deletes
`data` and stores the result of the decoder under `stringData`, whatever was there. -/
theorem ProcessResource_of_decoded (lib : Lib) (resource dataMap : IMap) (decodedData : Value)
    (hdata : imapGet resource "data" = some (.imap dataMap))
    (hdec : lib.decodeDataMap (collectStringData dataMap []) = .ok decodedData) :
    ProcessResource lib resource
        = (none, imapPut (imapDel resource "data") "stringData" decodedData) ∧
    imapGet (ProcessResource lib resource).2 "stringData" = some decodedData := by
  have h : ProcessResource lib resource
      = (none, imapPut (imapDel resource "data") "stringData" decodedData) := by
    simp [ProcessResource, hdata, asIMap, hdec]
  rw [h]
  exact ⟨rfl, imapGet_imapPut_self _ _ _⟩

/-- C12 as stated fails. On the document that `yaml.Unmarshal` builds from the input of
`TestParseYamlSecret`, whose `data` is interface-keyed and whose `stringData` holds `key3`,
`ProcessResource` succeeds and leaves under `stringData` only what the decoder returned for
the entries of `data`: `key3` is gone. This does not depend on the decoder: for every
library, `stringData` ends up being exactly the value `DecodeDataMap` returned for the two
entries of `data`. -/
theorem processResource_overwrites_stringData :
    imapGet secretYamlData "stringData" = some (.imap [(.str "key3", .str "value3")]) ∧
    (ProcessResource exampleLib secretYamlData).1 = none ∧
    imapGet (ProcessResource exampleLib secretYamlData).2 "stringData"
      = some (.smap [("key1", .str "value1"), ("key2", .str "value2")]) ∧
    ∀ (lib : Lib) (decodedData : Value),
      lib.decodeDataMap [("key1", "dmFsdWUx"), ("key2", "dmFsdWUy")] = .ok decodedData →
      (ProcessResource lib secretYamlData).1 = none ∧
      imapGet (ProcessResource lib secretYamlData).2 "stringData" = some decodedData := by
  refine ⟨rfl, rfl, rfl, ?_⟩
  intro lib decodedData hdec
  have h := ProcessResource_of_decoded lib secretYamlData
    [(.str "key1", .str "dmFsdWUx"), (.str "key2", .str "dmFsdWUy")] decodedData rfl hdec
  rw [h.1]
  exact ⟨rfl, imapGet_imapPut_self _ _ _⟩

/-! ## Idempotence and frame of `DecodeBase64Values` -/

/-- A document without a `data` mapping and with a `stringData` mapping is a fixed point. -/
theorem DecodeBase64Values_fixed (lib : Lib) (inputData sd : SMap)
    (hdata : asSMap (mapGet inputData "data") = none)
    (hsd : mapGet inputData "stringData" = some (.smap sd)) :
    DecodeBase64Values lib inputData = (none, inputData) := by
  rw [DecodeBase64Values_of_no_data lib inputData hdata]
  simp only [hsd, asSMap]

/-- C13 (idempotence). When `DecodeBase64Values` succeeds on a document, it succeeds on the
resulting document as well and leaves it unchanged. -/
theorem decode_idempotent (lib : Lib) (inputData : SMap)
    (hok : (DecodeBase64Values lib inputData).1 = none) :
    DecodeBase64Values lib (DecodeBase64Values lib inputData).2
      = (none, (DecodeBase64Values lib inputData).2) := by
  rcases asSMap_eq_none_or (mapGet inputData "data") with hnone | ⟨data, hdata⟩
  · rw [DecodeBase64Values_of_no_data lib inputData hnone]
    cases hsd : asSMap (mapGet inputData "stringData") with
    | some sd =>
      rcases asSMap_eq_none_or (mapGet inputData "stringData") with h | ⟨m, hm⟩
      · rw [h] at hsd
        cases hsd
      · exact DecodeBase64Values_fixed lib inputData m hnone hm
    | none =>
      refine DecodeBase64Values_fixed lib _ [] ?_ (mapGet_mapPut_self _ _ _)
      rw [mapGet_mapPut_ne _ _ _ _ (by decide)]
      exact hnone
  · rw [DecodeBase64Values_of_data lib inputData data hdata] at hok ⊢
    generalize decodeLoop lib data ((asSMap (mapGet inputData "stringData")).getD []) = r
      at hok ⊢
    obtain ⟨err, sd'⟩ := r
    cases err with
    | some e => simp at hok
    | none =>
      refine DecodeBase64Values_fixed lib _ sd' ?_ ?_
      · rw [mapGet_mapDel_self]
        rfl
      · rw [mapGet_mapDel_ne _ _ _ (by decide), mapGet_mapPut_self]

/-- The theorem `decode_idempotent` at the document of `TestParseJsonSecret`. -/
theorem decode_idempotent_witness :
    (DecodeBase64Values exampleLib secretDoc).1 = none ∧
    DecodeBase64Values exampleLib (DecodeBase64Values exampleLib secretDoc).2
      = (none, (DecodeBase64Values exampleLib secretDoc).2) :=
  ⟨rfl, decode_idempotent exampleLib secretDoc rfl⟩

/-- C15 (frame). Whether it returns an error or not, `DecodeBase64Values` leaves every
top-level key other than `data` and `stringData` as it was: present with the same value, or
absent. -/
theorem other_fields_unchanged (lib : Lib) (inputData : SMap) (k : String)
    (hdata : k ≠ "data") (hsd : k ≠ "stringData") :
    mapGet (DecodeBase64Values lib inputData).2 k = mapGet inputData k := by
  rcases asSMap_eq_none_or (mapGet inputData "data") with hnone | ⟨data, hd⟩
  · rw [DecodeBase64Values_of_no_data lib inputData hnone]
    cases asSMap (mapGet inputData "stringData") with
    | some sd => rfl
    | none => exact mapGet_mapPut_ne _ _ _ _ hsd
  · rw [DecodeBase64Values_of_data lib inputData data hd]
    generalize decodeLoop lib data ((asSMap (mapGet inputData "stringData")).getD []) = r
    obtain ⟨err, sd'⟩ := r
    cases err with
    | some e => exact mapGet_mapPut_ne _ _ _ _ hsd
    | none =>
      simp only
      rw [mapGet_mapDel_ne _ _ _ hdata, mapGet_mapPut_ne _ _ _ _ hsd]

/-- The theorem `other_fields_unchanged` at the key `metadata`, on a document that is decoded
and on one that is rejected. -/
theorem other_fields_unchanged_witness :
    mapGet (DecodeBase64Values exampleLib secretDoc).2 "metadata"
      = some (.smap [("name", .str "my-secret")]) ∧
    (DecodeBase64Values exampleLib halfValidDoc).1 ≠ none ∧
    mapGet (DecodeBase64Values exampleLib halfValidDoc).2 "kind" = some (.str "Secret") :=
  ⟨other_fields_unchanged exampleLib secretDoc "metadata" (by decide) (by decide),
    by simp [show (DecodeBase64Values exampleLib halfValidDoc).1
      = some "failed to decode base64 value for key k1: illegal base64 data at input byte 3"
      from rfl],
    other_fields_unchanged exampleLib halfValidDoc "kind" (by decide) (by decide)⟩

/-! ## The `get` mode: invoking the executor -/

/-- C14 (executor). The function `HandleGetCommand` invokes the executor if and only if
`args` is not empty. With empty `args` it returns an error and invokes nothing; otherwise it
invokes the executor exactly once, as `kubectl` with the arguments `get` followed by `args`;
and when that invocation fails, it returns an error that embeds the captured output, writes
nothing and consults no parser. -/
theorem get_invokes_executor (lib : Lib) (detectedFormat : String) (args : List String)
    (executor : Executor) :
    (args = [] →
      HandleGetCommand lib detectedFormat args executor
        = ⟨some "resource type must be specified", "", []⟩) ∧
    (args ≠ [] →
      (HandleGetCommand lib detectedFormat args executor).calls
        = [("kubectl", "get" :: args)]) ∧
    ((HandleGetCommand lib detectedFormat args executor).calls ≠ [] ↔ args ≠ []) ∧
    (∀ cmdOutput err, args ≠ [] → executor "kubectl" ("get" :: args) = (cmdOutput, some err) →
      HandleGetCommand lib detectedFormat args executor
        = ⟨some ("failed to execute kubectl command: " ++ err ++ "\nOutput: " ++ cmdOutput),
            "", [("kubectl", "get" :: args)]⟩) := by
  have hempty : args = [] → HandleGetCommand lib detectedFormat args executor
      = ⟨some "resource type must be specified", "", []⟩ := by
    intro h
    subst h
    rfl
  have hcalls : args ≠ [] → (HandleGetCommand lib detectedFormat args executor).calls
      = [("kubectl", "get" :: args)] := by
    intro h
    have hlen : ¬ args.length < 1 := by
      cases args with
      | nil => exact absurd rfl h
      | cons a rest => simp
    unfold HandleGetCommand
    rw [if_neg hlen]
    simp only
    split
    · rfl
    · split
      · rfl
      · split <;> rfl
  refine ⟨hempty, hcalls, ⟨?_, ?_⟩, ?_⟩
  · intro hne hargs
    rw [hempty hargs] at hne
    exact hne rfl
  · intro hargs
    rw [hcalls hargs]
    simp
  · intro cmdOutput err hargs hexec
    have hlen : ¬ args.length < 1 := by
      cases args with
      | nil => exact absurd rfl hargs
      | cons a rest => simp
    unfold HandleGetCommand
    rw [if_neg hlen]
    simp only [hexec]

/-- The theorem `get_invokes_executor` with no argument, and with the arguments
`secrets -o json` and an executor that fails. -/
theorem get_invokes_executor_witness :
    HandleGetCommand exampleLib "" [] (fun _ _ => (listJson, none))
      = ⟨some "resource type must be specified", "", []⟩ ∧
    HandleGetCommand exampleLib "" ["secrets", "-o", "json"]
        (fun _ _ => ("No resources found", some "exit status 1"))
      = ⟨some "failed to execute kubectl command: exit status 1\nOutput: No resources found",
          "", [("kubectl", ["get", "secrets", "-o", "json"])]⟩ :=
  ⟨(get_invokes_executor exampleLib "" [] (fun _ _ => (listJson, none))).1 rfl,
    (get_invokes_executor exampleLib "" ["secrets", "-o", "json"]
      (fun _ _ => ("No resources found", some "exit status 1"))).2.2.2
      "No resources found" "exit status 1" (by decide) rfl⟩

/-! ## The normalisation `convertMap` -/

theorem stringKeyedEntries_mapPut (m : SMap) (k : String) (v : Value)
    (hm : stringKeyedEntries m = true) (hv : stringKeyed v = true) :
    stringKeyedEntries (mapPut m k v) = true := by
  induction m with
  | nil => simp [mapPut, stringKeyedEntries, hv]
  | cons e rest ih =>
    obtain ⟨k0, v0⟩ := e
    simp only [stringKeyedEntries, Bool.and_eq_true] at hm
    by_cases hk : k0 = k
    · simp [mapPut, hk, stringKeyedEntries, hv, hm.2]
    · simp [mapPut, hk, stringKeyedEntries, hm.1, ih hm.2]

mutual
/-- On a value of the shape the YAML parser produces, `convertMap` leaves no interface-keyed
mapping at any depth. -/
theorem convertMap_stringKeyed (lib : Lib) :
    ∀ v : Value, yamlShaped v = true → stringKeyed (convertMap lib v) = true
  | .null, _ => rfl
  | .bool _, _ => rfl
  | .int _, _ => rfl
  | .float _, _ => rfl
  | .str _, _ => rfl
  | .seq xs, h => by
    simp only [yamlShaped] at h
    simp only [convertMap, stringKeyed]
    exact convertMapItems_stringKeyed lib xs h
  | .smap _, h => by simp [yamlShaped] at h
  | .imap m, h => by
    simp only [yamlShaped] at h
    simp only [convertMap, stringKeyed]
    exact convertMapEntries_stringKeyed lib m [] h rfl
/-- The items of a converted sequence hold no interface-keyed mapping. -/
theorem convertMapItems_stringKeyed (lib : Lib) :
    ∀ xs : List Value, yamlShapedItems xs = true →
      stringKeyedItems (convertMapItems lib xs) = true
  | [], _ => rfl
  | x :: rest, h => by
    simp only [yamlShapedItems, Bool.and_eq_true] at h
    simp only [convertMapItems, stringKeyedItems, Bool.and_eq_true]
    exact ⟨convertMap_stringKeyed lib x h.1, convertMapItems_stringKeyed lib rest h.2⟩
/-- The entries of a converted mapping hold no interface-keyed mapping. -/
theorem convertMapEntries_stringKeyed (lib : Lib) :
    ∀ (m : List (Value × Value)) (newMap : SMap), yamlShapedEntries m = true →
      stringKeyedEntries newMap = true →
      stringKeyedEntries (convertMapEntries lib m newMap) = true
  | [], _, _, hacc => by simpa [convertMapEntries] using hacc
  | (key, value) :: rest, newMap, h, hacc => by
    simp only [yamlShapedEntries, Bool.and_eq_true] at h
    simp only [convertMapEntries]
    exact convertMapEntries_stringKeyed lib rest _ h.2
      (stringKeyedEntries_mapPut newMap _ _ hacc (convertMap_stringKeyed lib value h.1))
end

theorem convertMapItems_eq_map (lib : Lib) (xs : List Value) :
    convertMapItems lib xs = xs.map (convertMap lib) := by
  induction xs with
  | nil => simp [convertMapItems]
  | cons x rest ih => simp [convertMapItems, ih]

theorem mem_mapKeys_mapPut {β : Type} (m : List (String × β)) (k k' : String) (v : β) :
    k ∈ mapKeys (mapPut m k' v) ↔ k = k' ∨ k ∈ mapKeys m := by
  induction m with
  | nil => simp [mapPut, mapKeys]
  | cons e rest ih =>
    obtain ⟨k0, v0⟩ := e
    by_cases hk : k0 = k'
    · subst hk
      simp [mapPut, mapKeys]
    · simp only [mapPut, hk, if_false]
      simp only [mapKeys, List.map_cons, List.mem_cons] at ih ⊢
      rw [ih]
      tauto

theorem mem_mapKeys_convertMapEntries (lib : Lib) (m : List (Value × Value)) (newMap : SMap)
    (k : String) :
    k ∈ mapKeys (convertMapEntries lib m newMap) ↔
      k ∈ mapKeys newMap ∨ ∃ e ∈ m, lib.sprintV e.1 = k := by
  induction m generalizing newMap with
  | nil => simp [convertMapEntries]
  | cons e rest ih =>
    obtain ⟨key, value⟩ := e
    simp only [convertMapEntries]
    rw [ih, mem_mapKeys_mapPut]
    constructor
    · rintro ((h | h) | ⟨e, he, hk⟩)
      · exact Or.inr ⟨(key, value), List.mem_cons_self _ _, h.symm⟩
      · exact Or.inl h
      · exact Or.inr ⟨e, List.mem_cons_of_mem _ he, hk⟩
    · rintro (h | ⟨e, he, hk⟩)
      · exact Or.inl (Or.inr h)
      · rcases List.mem_cons.1 he with rfl | he'
        · exact Or.inl (Or.inl hk.symm)
        · exact Or.inr ⟨e, he', hk⟩

theorem isStr_eq_true (v : Value) (h : isStr v = true) : ∃ s, v = .str s := by
  cases v <;> simp_all [isStr]

/-- C16 (normalisation). On a value built from interface-keyed mappings, sequences and
scalars, the result of `convertMap` holds only string-keyed mappings at every depth, also
inside sequences. Scalars are unchanged, a sequence is converted item by item (same length,
same order), and a mapping all of whose keys are strings becomes a string-keyed mapping with
exactly the same keys (`fmt.Sprintf("%v", s)` being `s` for a string `s`). -/
theorem convertMap_normalises (lib : Lib) :
    (∀ v, yamlShaped v = true → stringKeyed (convertMap lib v) = true) ∧
    (∀ v, isScalar v = true → convertMap lib v = v) ∧
    (∀ xs, convertMap lib (.seq xs) = .seq (xs.map (convertMap lib)) ∧
      (xs.map (convertMap lib)).length = xs.length) ∧
    ∀ m : IMap, (∀ s, lib.sprintV (.str s) = s) → (∀ e ∈ m, isStr e.1 = true) →
      ∃ m', convertMap lib (.imap m) = .smap m' ∧
        ∀ k, k ∈ mapKeys m' ↔ ∃ v, (Value.str k, v) ∈ m := by
  refine ⟨convertMap_stringKeyed lib, ?_, ?_, ?_⟩
  · intro v hv
    cases v <;> simp_all [isScalar, convertMap]
  · intro xs
    refine ⟨?_, List.length_map _ _⟩
    simp only [convertMap, convertMapItems_eq_map]
  · intro m hsprint hkeys
    refine ⟨convertMapEntries lib m [], convertMap_imap lib m, ?_⟩
    intro k
    rw [mem_mapKeys_convertMapEntries]
    constructor
    · rintro (h | ⟨e, he, hk⟩)
      · simp [mapKeys] at h
      · obtain ⟨s, hs⟩ := isStr_eq_true e.1 (hkeys e he)
        rw [hs, hsprint] at hk
        subst hk
        refine ⟨e.2, ?_⟩
        rw [← hs]
        exact he
    · rintro ⟨v, hv⟩
      exact Or.inr ⟨(.str k, v), hv, hsprint k⟩

/-- The theorem `convertMap_normalises` at what the YAML parser builds from the input of
`TestParseYamlSecret`: the converted value is the document of `TestParseJsonSecret`, which
has the same five keys. -/
theorem convertMap_normalises_witness :
    yamlShaped (.imap secretYamlData) = true ∧
    convertMap exampleLib (.imap secretYamlData) = .smap secretDoc ∧
    stringKeyed (convertMap exampleLib (.imap secretYamlData)) = true ∧
    ∃ m', convertMap exampleLib (.imap secretYamlData) = .smap m' ∧
      ∀ k, k ∈ mapKeys m' ↔ ∃ v, (Value.str k, v) ∈ secretYamlData :=
  ⟨rfl, rfl, (convertMap_normalises exampleLib).1 (.imap secretYamlData) rfl,
    (convertMap_normalises exampleLib).2.2.2 secretYamlData (fun _ => rfl)
      (by
        intro e he
        simp only [secretYamlData, List.mem_cons, List.mem_singleton, List.not_mem_nil,
          or_false] at he
        rcases he with rfl | rfl | rfl | rfl | rfl <;> rfl)⟩

/-! ## The entries `ProcessResource` passes to the decoder -/

theorem collectStringData_append (dataMap : IMap) (acc : List (String × String))
    (hn : (dataMap.map Prod.fst).Nodup)
    (hfresh : ∀ e ∈ dataMap, ∀ k, e.1 = Value.str k → k ∉ mapKeys acc) :
    collectStringData dataMap acc = acc ++ dataMap.filterMap stringEntry := by
  induction dataMap generalizing acc with
  | nil => simp [collectStringData]
  | cons e rest ih =>
    obtain ⟨k0, v0⟩ := e
    simp only [List.map_cons, List.nodup_cons] at hn
    have hrest : ∀ e ∈ rest, ∀ k, e.1 = Value.str k → k ∉ mapKeys acc :=
      fun e he k hk => hfresh e (List.mem_cons_of_mem _ he) k hk
    have skip : stringEntry (k0, v0) = none →
        collectStringData rest acc = acc ++ List.filterMap stringEntry ((k0, v0) :: rest) := by
      intro hnone
      rw [List.filterMap_cons_none hnone]
      exact ih acc hn.2 hrest
    cases k0 with
    | str k =>
      cases v0 with
      | str v =>
        have habs : k ∉ mapKeys acc := hfresh (.str k, .str v) (List.mem_cons_self _ _) k rfl
        simp only [collectStringData, mapPut_of_absent acc k v habs]
        rw [ih (acc ++ [(k, v)]) hn.2]
        · simp [stringEntry]
        · intro e he k' hk'
          simp only [mapKeys, List.map_append, List.map_cons, List.map_nil, List.mem_append,
            List.mem_singleton, not_or]
          refine ⟨hrest e he k' hk', ?_⟩
          rintro rfl
          apply hn.1
          rw [← hk']
          exact List.mem_map_of_mem Prod.fst he
      | null => simpa [collectStringData] using skip rfl
      | bool b => simpa [collectStringData] using skip rfl
      | int n => simpa [collectStringData] using skip rfl
      | float b => simpa [collectStringData] using skip rfl
      | seq xs => simpa [collectStringData] using skip rfl
      | smap m => simpa [collectStringData] using skip rfl
      | imap m => simpa [collectStringData] using skip rfl
    | null => simpa [collectStringData] using skip rfl
    | bool b => simpa [collectStringData] using skip rfl
    | int n => simpa [collectStringData] using skip rfl
    | float b => simpa [collectStringData] using skip rfl
    | seq xs => simpa [collectStringData] using skip rfl
    | smap m => simpa [collectStringData] using skip rfl
    | imap m => simpa [collectStringData] using skip rfl

/-- With pairwise distinct keys, the map handed to the decoder holds the string entries of
`data`, in iteration order. -/
theorem collectStringData_eq (dataMap : IMap) (hn : (dataMap.map Prod.fst).Nodup) :
    collectStringData dataMap [] = dataMap.filterMap stringEntry := by
  rw [collectStringData_append dataMap [] hn (by simp [mapKeys])]
  simp

/-- C17 (entries passed on). When `data` is an interface-keyed mapping, `ProcessResource`
hands to the decoder exactly the entries of `data` whose key and value are both strings, and
its result is the result of the decoder on those entries; an entry with another key or value
is skipped: the map handed over, hence the error returned, is the same as without it. -/
theorem processResource_passes_string_entries (lib : Lib) (resource dataMap : IMap)
    (hdata : imapGet resource "data" = some (.imap dataMap))
    (hn : (dataMap.map Prod.fst).Nodup) :
    collectStringData dataMap [] = dataMap.filterMap stringEntry ∧
    ProcessResource lib resource =
      (match lib.decodeDataMap (dataMap.filterMap stringEntry) with
        | .error err => (some err, resource)
        | .ok decodedData =>
          (none, imapPut (imapDel resource "data") "stringData" decodedData)) ∧
    (∀ k v, (k, v) ∈ dataMap.filterMap stringEntry ↔ (Value.str k, Value.str v) ∈ dataMap) ∧
    ∀ pre e post, dataMap = pre ++ e :: post → stringEntry e = none →
      collectStringData dataMap [] = collectStringData (pre ++ post) [] := by
  have hcollect := collectStringData_eq dataMap hn
  refine ⟨hcollect, ?_, ?_, ?_⟩
  · simp only [ProcessResource, hdata, asIMap, hcollect]
  · intro k v
    rw [List.mem_filterMap]
    constructor
    · rintro ⟨e, he, hs⟩
      obtain ⟨k0, v0⟩ := e
      cases k0 <;> cases v0 <;> simp [stringEntry] at hs
      obtain ⟨rfl, rfl⟩ := hs
      exact he
    · intro h
      exact ⟨(.str k, .str v), h, rfl⟩
  · intro pre e post hsplit hnone
    have hn' : ((pre ++ post).map Prod.fst).Nodup := by
      rw [hsplit] at hn
      simp only [List.map_append, List.map_cons] at hn ⊢
      exact hn.sublist (List.Sublist.append_left (List.sublist_cons_self _ _) _)
    rw [hcollect, collectStringData_eq (pre ++ post) hn', hsplit, List.filterMap_append,
      List.filterMap_append, List.filterMap_cons_none hnone]

/-- The theorem `processResource_passes_string_entries` at a resource whose `data` has one
string entry and two entries that are skipped. -/
theorem processResource_passes_string_entries_witness :
    collectStringData
        [(.str "key1", .str "dmFsdWUx"), (.int 3, .str "eA=="), (.str "count", .int 4)] []
      = [("key1", "dmFsdWUx")] ∧
    ProcessResource exampleLib mixedResource
      = (none, [(.str "kind", .str "Secret"),
          (.str "stringData", .smap [("key1", .str "value1")])]) :=
  ⟨(processResource_passes_string_entries exampleLib mixedResource
      [(.str "key1", .str "dmFsdWUx"), (.int 3, .str "eA=="), (.str "count", .int 4)] rfl
      (by simp)).1,
    rfl⟩

/-! ## `ProcessResource` on parsed documents -/

theorem stringKeyed_of_mapGet (m : SMap) (k : String) (v : Value)
    (hm : stringKeyedEntries m = true) (hv : mapGet m k = some v) : stringKeyed v = true := by
  induction m with
  | nil => simp [mapGet] at hv
  | cons e rest ih =>
    obtain ⟨k0, v0⟩ := e
    simp only [stringKeyedEntries, Bool.and_eq_true] at hm
    by_cases hk : k0 = k
    · simp only [mapGet, hk, if_true, Option.some.injEq] at hv
      rw [← hv]
      exact hm.1
    · simp only [mapGet, hk, if_false] at hv
      exact ih hm.2 hv

/-- The loop over `items` does nothing when no item is a `map[interface{}]interface{}`. -/
theorem processItems_of_stringKeyed (lib : Lib) (items : List Value) (i : Nat)
    (h : stringKeyedItems items = true) : processItems lib i items = (none, items) := by
  induction items generalizing i with
  | nil => rfl
  | cons item rest ih =>
    simp only [stringKeyedItems, Bool.and_eq_true] at h
    cases item with
    | imap m => simp [stringKeyed] at h
    | null => simp [processItems, ih (i + 1) h.2]
    | bool b => simp [processItems, ih (i + 1) h.2]
    | int n => simp [processItems, ih (i + 1) h.2]
    | float b => simp [processItems, ih (i + 1) h.2]
    | str s => simp [processItems, ih (i + 1) h.2]
    | seq xs => simp [processItems, ih (i + 1) h.2]
    | smap m => simp [processItems, ih (i + 1) h.2]

theorem keyIs_eq_true (k0 : Value) (k : String) (h : keyIs k0 k = true) : k0 = .str k := by
  cases k0 <;> simp_all [keyIs]

theorem imapPut_of_imapGet (m : IMap) (k : String) (v : Value)
    (h : imapGet m k = some v) : imapPut m k v = m := by
  induction m with
  | nil => simp [imapGet] at h
  | cons e rest ih =>
    obtain ⟨k0, v0⟩ := e
    cases hk : keyIs k0 k with
    | true =>
      simp only [imapGet, hk, if_true, Option.some.injEq] at h
      have hk0 := keyIs_eq_true k0 k hk
      subst hk0
      subst h
      simp only [imapPut, hk, if_true]
    | false =>
      simp only [imapGet, hk, Bool.false_eq_true, if_false] at h
      simp only [imapPut, hk, Bool.false_eq_true, if_false, ih h]

theorem asIMap_of_stringKeyed (v : Option Value)
    (h : ∀ w, v = some w → stringKeyed w = true) : asIMap v = none := by
  cases v with
  | none => rfl
  | some w =>
    have hw := h w rfl
    cases w <;> simp_all [asIMap, stringKeyed]

/-- On the copy of a document whose mappings are all string-keyed, `ProcessResource` does
nothing. -/
theorem ProcessResource_of_stringKeyed (lib : Lib) (doc : SMap) (hn : KeysNodup doc)
    (hs : stringKeyedEntries doc = true) :
    ProcessResource lib (toInterfaceMap doc) = (none, toInterfaceMap doc) := by
  apply ProcessResource_of_no_imap
  rw [imapGet_toInterfaceMap doc hn]
  exact asIMap_of_stringKeyed _ (fun w hw => stringKeyed_of_mapGet doc "data" w hs hw)

/-- On the copy of a document whose mappings are all string-keyed, the branch
`// Process resources` of `HandleGetCommand` does nothing, for a `List` as for any other
kind. -/
theorem processResources_of_stringKeyed (lib : Lib) (doc : SMap) (hn : KeysNodup doc)
    (hs : stringKeyedEntries doc = true) :
    processResources lib (toInterfaceMap doc) = (none, toInterfaceMap doc) := by
  have hproc := ProcessResource_of_stringKeyed lib doc hn hs
  unfold processResources
  split
  · split
    · rename_i items hitems
      have hitems' : mapGet doc "items" = some (.seq items) := by
        rw [← imapGet_toInterfaceMap doc hn]
        exact hitems
      have hsk : stringKeyedItems items = true := by
        have := stringKeyed_of_mapGet doc "items" _ hs hitems'
        simpa [stringKeyed] using this
      simp only [processItems_of_stringKeyed lib items 0 hsk,
        imapPut_of_imapGet _ _ _ hitems]
    · rfl
  · rw [hproc]

theorem mapKeys_mapPut {β : Type} (m : List (String × β)) (k : String) (v : β) :
    mapKeys (mapPut m k v) = if k ∈ mapKeys m then mapKeys m else mapKeys m ++ [k] := by
  induction m with
  | nil => simp [mapPut, mapKeys]
  | cons e rest ih =>
    obtain ⟨k0, v0⟩ := e
    by_cases hk : k0 = k
    · subst hk
      simp [mapPut, mapKeys]
    · have hk' : ¬ k = k0 := fun h => hk h.symm
      simp only [mapPut, hk, if_false]
      simp only [mapKeys, List.map_cons, List.mem_cons, hk', false_or] at ih ⊢
      rw [ih]
      split <;> simp

theorem KeysNodup_mapPut {β : Type} (m : List (String × β)) (k : String) (v : β)
    (h : KeysNodup m) : KeysNodup (mapPut m k v) := by
  unfold KeysNodup at h ⊢
  rw [mapKeys_mapPut]
  split
  · exact h
  · rename_i hk
    rw [List.nodup_append]
    refine ⟨h, List.nodup_singleton k, ?_⟩
    intro a ha hb
    simp only [List.mem_singleton] at hb
    subst hb
    exact hk ha

theorem KeysNodup_convertMapEntries (lib : Lib) (m : List (Value × Value)) (newMap : SMap)
    (h : KeysNodup newMap) : KeysNodup (convertMapEntries lib m newMap) := by
  induction m generalizing newMap with
  | nil => simpa [convertMapEntries] using h
  | cons e rest ih =>
    obtain ⟨key, value⟩ := e
    simp only [convertMapEntries]
    exact ih _ (KeysNodup_mapPut newMap _ _ h)

/-- A document that `ParseInput` returns has distinct keys and only string-keyed mappings,
provided the JSON parser returns such documents and the YAML parser returns interface-keyed
mappings, sequences and scalars. -/
theorem ParseInput_ok_shape (lib : Lib) (detectedFormat input : String) (doc : SMap)
    (format : String)
    (hjson : ∀ d, lib.jsonUnmarshal input = some d → stringKeyedEntries d = true ∧ KeysNodup d)
    (hyaml : ∀ y, lib.yamlUnmarshal input = some y → yamlShapedEntries y = true)
    (h : ParseInput lib detectedFormat input = (.ok doc, format)) :
    stringKeyedEntries doc = true ∧ KeysNodup doc := by
  rw [ParseInput_eq] at h
  cases hj : lib.jsonUnmarshal input with
  | some jsonData =>
    rw [hj] at h
    simp only [Prod.mk.injEq, Except.ok.injEq] at h
    rw [← h.1]
    exact hjson jsonData hj
  | none =>
    rw [hj] at h
    cases hy : lib.yamlUnmarshal input with
    | none =>
      rw [hy] at h
      simp at h
    | some yamlData =>
      rw [hy] at h
      simp only [Prod.mk.injEq, Except.ok.injEq] at h
      rw [← h.1]
      exact ⟨convertMapEntries_stringKeyed lib yamlData [] (hyaml yamlData hy) rfl,
        KeysNodup_convertMapEntries lib yamlData [] (by simp [KeysNodup, mapKeys])⟩

/-- A successful `ParseInput` does not depend on the previous value of `detectedFormat`. -/
theorem ParseInput_ok_any (lib : Lib) (detectedFormat other input : String) (doc : SMap)
    (format : String) (h : ParseInput lib detectedFormat input = (.ok doc, format)) :
    ParseInput lib other input = (.ok doc, format) := by
  rw [ParseInput_eq] at h ⊢
  cases hj : lib.jsonUnmarshal input with
  | some jsonData =>
    rw [hj] at h
    exact h
  | none =>
    rw [hj] at h
    cases hy : lib.yamlUnmarshal input with
    | none =>
      rw [hy] at h
      simp at h
    | some yamlData =>
      rw [hy] at h
      exact h

/-- The document `OutputResult` serialises is the one `DecodeBase64Values` leaves. -/
theorem OutputResult_inputData (lib : Lib) (detectedFormat bytes : String) (inputData : SMap) :
    (OutputResult lib detectedFormat bytes inputData).inputData
      = (DecodeBase64Values lib inputData).2 := by
  unfold OutputResult
  generalize DecodeBase64Values lib inputData = r
  obtain ⟨err, d⟩ := r
  cases err with
  | some e => rfl
  | none =>
    simp only
    split
    · cases lib.jsonMarshalIndent d <;> rfl
    · split
      · cases lib.yamlMarshal d <;> rfl
      · rfl

/-- The function `HandleGetCommand` when the executor succeeds and its output is parsed. -/
theorem HandleGetCommand_of_parsed (lib : Lib) (detectedFormat : String) (args : List String)
    (executor : Executor) (cmdOutput : String) (doc : SMap) (format : String)
    (hargs : args ≠ []) (hexec : executor "kubectl" ("get" :: args) = (cmdOutput, none))
    (hparse : ParseInput lib detectedFormat cmdOutput = (.ok doc, format)) :
    HandleGetCommand lib detectedFormat args executor =
      match processResources lib (toInterfaceMap doc) with
      | (some err, _) => ⟨some err, "", [("kubectl", "get" :: args)]⟩
      | (none, interfaceInputData) =>
        ⟨(OutputResult lib format cmdOutput (toStringMap interfaceInputData)).err,
          (OutputResult lib format cmdOutput (toStringMap interfaceInputData)).stdout,
          [("kubectl", "get" :: args)]⟩ := by
  have hlen : ¬ args.length < 1 := by
    cases args with
    | nil => exact absurd rfl hargs
    | cons a rest => simp
  unfold HandleGetCommand
  rw [if_neg hlen]
  simp only [hexec, hparse]

/-- C18 (the pipelines decode the top level only). Let `ParseInput` return a document, from
a JSON parser that yields string-keyed mappings with distinct keys or from a YAML parser that
yields interface-keyed mappings, sequences and scalars. Then every mapping of the document is
string-keyed, so `ProcessResource` on the re-wrapped document returns no error and changes
nothing, the loop over `items` changes no item, and the copy back gives the parsed document;
hence both pipelines hand the parsed document itself to `OutputResult`, and the document
emitted is the one `DecodeBase64Values` leaves from the top-level parsed document. -/
theorem pipelines_decode_top_level_only (lib : Lib) (detectedFormat input : String)
    (doc : SMap) (format : String)
    (hjson : ∀ d, lib.jsonUnmarshal input = some d → stringKeyedEntries d = true ∧ KeysNodup d)
    (hyaml : ∀ y, lib.yamlUnmarshal input = some y → yamlShapedEntries y = true)
    (hparse : ParseInput lib detectedFormat input = (.ok doc, format)) :
    stringKeyed (.smap doc) = true ∧
    ProcessResource lib (toInterfaceMap doc) = (none, toInterfaceMap doc) ∧
    (∀ items i, mapGet doc "items" = some (.seq items) →
      processItems lib i items = (none, items)) ∧
    processResources lib (toInterfaceMap doc) = (none, toInterfaceMap doc) ∧
    toStringMap (toInterfaceMap doc) = doc ∧
    (∀ executor osArgs, ¬ (osArgs.length > 1 ∧ osArgs.get? 1 = some "get") →
      Execute lib executor osArgs (.ok input) =
        match (OutputResult lib format input doc).err with
        | some err =>
          ⟨(OutputResult lib format input doc).stdout,
            "Error outputting result: " ++ err ++ "\n", 1⟩
        | none => ⟨(OutputResult lib format input doc).stdout, "", 0⟩) ∧
    (∀ executor args, args ≠ [] → executor "kubectl" ("get" :: args) = (input, none) →
      HandleGetCommand lib detectedFormat args executor =
        ⟨(OutputResult lib format input doc).err, (OutputResult lib format input doc).stdout,
          [("kubectl", "get" :: args)]⟩) ∧
    (OutputResult lib format input doc).inputData = (DecodeBase64Values lib doc).2 ∧
    ∀ decoded, DecodeBase64Values lib doc = (none, decoded) →
      (format = "json" ∧
        OutputResult lib format input doc =
          match lib.jsonMarshalIndent decoded with
          | .error err => ⟨some ("error encoding JSON: " ++ err), "", decoded⟩
          | .ok output => ⟨none, output, decoded⟩) ∨
      (format = "yaml" ∧
        OutputResult lib format input doc =
          match lib.yamlMarshal decoded with
          | .error err => ⟨some ("error encoding YAML: " ++ err), "", decoded⟩
          | .ok output => ⟨none, output, decoded⟩) := by
  obtain ⟨hs, hn⟩ := ParseInput_ok_shape lib detectedFormat input doc format hjson hyaml hparse
  have hproc := ProcessResource_of_stringKeyed lib doc hn hs
  have hres := processResources_of_stringKeyed lib doc hn hs
  have hback := toStringMap_toInterfaceMap doc hn
  refine ⟨by simpa [stringKeyed] using hs, hproc, ?_, hres, hback, ?_, ?_,
    OutputResult_inputData lib format input doc, ?_⟩
  · intro items i hitems
    apply processItems_of_stringKeyed
    have := stringKeyed_of_mapGet doc "items" _ hs hitems
    simpa [stringKeyed] using this
  · intro executor osArgs hmode
    rw [Execute_filter_of_parsed lib executor osArgs input doc format hmode
      (ParseInput_ok_any lib detectedFormat "" input doc format hparse), hproc]
    simp only [hback]
  · intro executor args hargs hexec
    rw [HandleGetCommand_of_parsed lib detectedFormat args executor input doc format hargs hexec
      hparse, hres]
    simp only [hback]
  · intro decoded hdec
    rcases ParseInput_ok_format lib detectedFormat input doc format hparse with hf | hf
    · subst hf
      exact Or.inl ⟨rfl, (OutputResult_of_decoded lib "json" input doc decoded hdec).1
        (AssertFormat_of_detected "json" input (by decide))⟩
    · subst hf
      exact Or.inr ⟨rfl, (OutputResult_of_decoded lib "yaml" input doc decoded hdec).2
        (AssertFormat_of_detected "yaml" input (by decide))⟩

/-- The theorem `pipelines_decode_top_level_only` at the list of two secrets: in the `get`
mode the output is the serialisation of what `DecodeBase64Values` leaves from the parsed
list, whose items are untouched. -/
theorem pipelines_decode_top_level_only_witness :
    ParseInput exampleLib "" listJson = (.ok listDoc, "json") ∧
    processResources exampleLib (toInterfaceMap listDoc) = (none, toInterfaceMap listDoc) ∧
    HandleGetCommand exampleLib "" ["secrets"] (fun _ _ => (listJson, none)) =
      ⟨(OutputResult exampleLib "json" listJson listDoc).err,
        (OutputResult exampleLib "json" listJson listDoc).stdout,
        [("kubectl", ["get", "secrets"])]⟩ ∧
    (OutputResult exampleLib "json" listJson listDoc).inputData
      = listDoc ++ [("stringData", .smap [])] :=
  ⟨rfl,
    (pipelines_decode_top_level_only exampleLib "" listJson listDoc "json"
      (fun d hd => by
        have e : exampleLib.jsonUnmarshal listJson = some listDoc := rfl
        rw [e] at hd
        cases hd
        exact ⟨rfl, by decide⟩)
      (fun y hy => by
        have e : exampleLib.yamlUnmarshal listJson = none := rfl
        rw [e] at hy
        cases hy)
      rfl).2.2.2.1,
    (pipelines_decode_top_level_only exampleLib "" listJson listDoc "json"
      (fun d hd => by
        have e : exampleLib.jsonUnmarshal listJson = some listDoc := rfl
        rw [e] at hd
        cases hd
        exact ⟨rfl, by decide⟩)
      (fun y hy => by
        have e : exampleLib.yamlUnmarshal listJson = none := rfl
        rw [e] at hy
        cases hy)
      rfl).2.2.2.2.2.2.1 (fun _ _ => (listJson, none)) ["secrets"] (by decide) rfl,
    rfl⟩

/-! ## What `ProcessResource` does to `stringData` -/

theorem imapGet_imapPut_ne (m : IMap) (k k' : String) (v : Value) (hne : k' ≠ k) :
    imapGet (imapPut m k v) k' = imapGet m k' := by
  induction m with
  | nil =>
    have h : keyIs (.str k) k' = false := by
      rw [keyIs_str]
      simpa using Ne.symm hne
    simp [imapPut, imapGet, h]
  | cons e rest ih =>
    obtain ⟨k0, v0⟩ := e
    cases hk : keyIs k0 k with
    | true =>
      have hk0 := keyIs_eq_true k0 k hk
      subst hk0
      have h : keyIs (.str k) k' = false := by
        rw [keyIs_str]
        simpa using Ne.symm hne
      simp only [imapPut, hk, if_true, imapGet, h, Bool.false_eq_true, if_false]
    | false =>
      simp only [imapPut, hk, Bool.false_eq_true, if_false, imapGet, ih]

theorem imapGet_imapDel_self (m : IMap) (k : String) : imapGet (imapDel m k) k = none := by
  induction m with
  | nil => rfl
  | cons e rest ih =>
    obtain ⟨k0, v0⟩ := e
    cases hk : keyIs k0 k with
    | true => simpa [imapDel, List.filter_cons, hk] using ih
    | false => simpa [imapDel, List.filter_cons, hk, imapGet] using ih

theorem imapGet_imapDel_ne (m : IMap) (k k' : String) (hne : k' ≠ k) :
    imapGet (imapDel m k) k' = imapGet m k' := by
  induction m with
  | nil => rfl
  | cons e rest ih =>
    obtain ⟨k0, v0⟩ := e
    cases hk : keyIs k0 k with
    | true =>
      have hk0 := keyIs_eq_true k0 k hk
      subst hk0
      have h : keyIs (.str k) k' = false := by
        rw [keyIs_str]
        simpa using Ne.symm hne
      simpa [imapDel, List.filter_cons, hk, imapGet, h] using ih
    | false =>
      cases hk' : keyIs k0 k' with
      | true => simp [imapDel, List.filter_cons, hk, imapGet, hk']
      | false => simpa [imapDel, List.filter_cons, hk, imapGet, hk'] using ih

/-- C12 (pre-existing `stringData`, amended). When the `data` field of a resource is not an
interface-keyed mapping, which is the case of every re-wrapped document whose mappings are
string-keyed, `ProcessResource` returns no error and leaves the resource unchanged, hence
every entry of `stringData` in place. When `data` is an interface-keyed mapping, a failing
decoder leaves the resource unchanged, and after a successful decoder `data` is removed,
every key other than `data` and `stringData` reads as before and `stringData` is the value
the decoder returned, whatever that is. -/
theorem processResource_stringData_frame (lib : Lib) (resource : IMap) :
    (asIMap (imapGet resource "data") = none →
      ProcessResource lib resource = (none, resource)) ∧
    (∀ doc : SMap, KeysNodup doc → stringKeyedEntries doc = true →
      resource = toInterfaceMap doc →
      ProcessResource lib resource = (none, resource) ∧
      imapGet (ProcessResource lib resource).2 "stringData" = mapGet doc "stringData") ∧
    (∀ dataMap err, imapGet resource "data" = some (.imap dataMap) →
      lib.decodeDataMap (collectStringData dataMap []) = .error err →
      ProcessResource lib resource = (some err, resource)) ∧
    ∀ dataMap decodedData, imapGet resource "data" = some (.imap dataMap) →
      lib.decodeDataMap (collectStringData dataMap []) = .ok decodedData →
      ProcessResource lib resource
        = (none, imapPut (imapDel resource "data") "stringData" decodedData) ∧
      imapGet (ProcessResource lib resource).2 "data" = none ∧
      imapGet (ProcessResource lib resource).2 "stringData" = some decodedData ∧
      ∀ k, k ≠ "data" → k ≠ "stringData" →
        imapGet (ProcessResource lib resource).2 k = imapGet resource k := by
  refine ⟨ProcessResource_of_no_imap lib resource, ?_, ?_, ?_⟩
  · intro doc hn hs hres
    subst hres
    rw [ProcessResource_of_stringKeyed lib doc hn hs]
    exact ⟨rfl, imapGet_toInterfaceMap doc hn "stringData"⟩
  · intro dataMap err hdata hdec
    simp [ProcessResource, hdata, asIMap, hdec]
  · intro dataMap decodedData hdata hdec
    rw [(ProcessResource_of_decoded lib resource dataMap decodedData hdata hdec).1]
    refine ⟨rfl, ?_, imapGet_imapPut_self _ _ _, ?_⟩
    · simp only
      rw [imapGet_imapPut_ne _ _ _ _ (by decide), imapGet_imapDel_self]
    · intro k hk1 hk2
      simp only
      rw [imapGet_imapPut_ne _ _ _ _ hk2, imapGet_imapDel_ne _ _ _ hk1]

/-- The theorem `processResource_stringData_frame` at the re-wrapped document of
`TestParseJsonSecret`, which is left unchanged with `key3` in place, and at the
interface-keyed document of `TestParseYamlSecret`, whose keys other than `data` and
`stringData` read as before. -/
theorem processResource_stringData_frame_witness :
    (ProcessResource exampleLib (toInterfaceMap secretDoc) = (none, toInterfaceMap secretDoc) ∧
      imapGet (ProcessResource exampleLib (toInterfaceMap secretDoc)).2 "stringData"
        = some (.smap [("key3", .str "value3")])) ∧
    ((ProcessResource exampleLib secretYamlData).1 = none ∧
      imapGet (ProcessResource exampleLib secretYamlData).2 "data" = none ∧
      ∀ k, k ≠ "data" → k ≠ "stringData" →
        imapGet (ProcessResource exampleLib secretYamlData).2 k = imapGet secretYamlData k) :=
  ⟨(processResource_stringData_frame exampleLib (toInterfaceMap secretDoc)).2.1 secretDoc
      (by decide) rfl rfl,
    ⟨rfl, rfl,
      ((processResource_stringData_frame exampleLib secretYamlData).2.2.2
        [(.str "key1", .str "dmFsdWUx"), (.str "key2", .str "dmFsdWUy")]
        (.smap [("key1", .str "value1"), ("key2", .str "value2")]) rfl rfl).2.2.2⟩⟩

end KubectlDecode
